import Mathlib

/-!
# Verification of the Poisson 5-point stencil engine (`Poisson-PDE.ipynb`)

Shallow embedding of the discretisation engine of the repository:

* `poissonEntries`/`poisson_f` — the sparse operator builder `discretise_poisson(N)`
  (cell 4 of the notebook), emitting coefficient triplets `(row, col, value)` in the
  source's emission order together with the right-hand side `f`.
* `gpuNaive`/`naiveOut` — the naive matrix-free kernel `discretise_poisson_gpu`
  (cell 7), one output point per thread.
* `threadWrites`/`tileWrites`/`localBuf`/`tileCompute`/`gpu2out` — the
  shared-memory tiled kernel `discretise_poisson_gpu_2` (cell 13).  The shared
  array `local_u` is modelled by the ordered list of `(cell, value)` writes each
  thread performs (in the program order of the kernel body), folded over an
  arbitrary initial buffer `init` (uninitialised shared memory) with
  last-write-wins semantics; the barrier is the point at which `localBuf` is read.

All `float32`/`float64` values are idealised as exact rationals (`ℚ`), so the
"up to floating-point rounding" clauses of the specification become exact
equalities.  Machine indices are far below any overflow boundary relevant here
and are modelled as `ℕ`.
-/

namespace PoissonPDE

/-- Boundary test of the N×N grid, as written in all three source kernels:
`i == 0 or i == N - 1 or j == 0 or j == N - 1`. -/
def isBoundary (N i j : ℕ) : Prop :=
  i = 0 ∨ i = N - 1 ∨ j = 0 ∨ j = N - 1

instance (N i j : ℕ) : Decidable (isBoundary N i j) :=
  inferInstanceAs (Decidable (_ ∨ _ ∨ _ ∨ _))

/-- The stencil coefficient `(N - 1)**2` (the reciprocal of `h²`). -/
def coef (N : ℕ) : ℚ := ((N - 1 : ℕ) : ℚ) ^ 2

/-- Flat index of the upper stencil neighbour, `(j + 1) * N + i` in the source. -/
def upIdx (N i j : ℕ) : ℕ := (j + 1) * N + i

/-- Flat index of the lower stencil neighbour, `(j - 1) * N + i` in the source. -/
def downIdx (N i j : ℕ) : ℕ := (j - 1) * N + i

/-- Flat index of the left stencil neighbour, `j * N + i - 1` in the source. -/
def leftIdx (N i j : ℕ) : ℕ := j * N + i - 1

/-- Flat index of the right stencil neighbour, `j * N + i + 1` in the source. -/
def rightIdx (N i j : ℕ) : ℕ := j * N + i + 1

/-! ## The sparse operator builder `discretise_poisson` (cell 4) -/

/-- Triplets emitted by one iteration of the double loop of `discretise_poisson`:
for a boundary point a single diagonal entry of value 1; for an interior point the
centre entry `4 (N-1)²` followed by the right/left/down/up neighbour entries of
value `-(N-1)²`, in the source's emission order. -/
def poissonBlock (N i j : ℕ) : List (ℕ × ℕ × ℚ) :=
  if isBoundary N i j then [(j * N + i, j * N + i, 1)]
  else
    [(j * N + i, j * N + i, 4 * coef N),
     (j * N + i, j * N + i + 1, -coef N),
     (j * N + i, j * N + i - 1, -coef N),
     (j * N + i, (j + 1) * N + i, -coef N),
     (j * N + i, (j - 1) * N + i, -coef N)]

/-- All triplets `(row_ind, col_ind, data)` emitted by `discretise_poisson(N)`,
in emission order (`for j in range(N): for i in range(N): ...`). -/
def poissonEntries (N : ℕ) : List (ℕ × ℕ × ℚ) :=
  (List.range N).flatMap fun j => (List.range N).flatMap fun i => poissonBlock N i j

/-- The right-hand side `f` of `discretise_poisson(N)`: the slot `j * N + i` is
written with 0 for boundary points and 1 for interior points; listing the values
in index order gives the vector. -/
def poisson_f (N : ℕ) : List ℚ :=
  (List.range N).flatMap fun j =>
    (List.range N).map fun i => if isBoundary N i j then (0 : ℚ) else 1

/-- Action of one row of a triplet list on a vector: the sum over all entries of
that row of `value * u[col]`.  This is row `r` of `A @ u` for the matrix assembled
from the triplets (`coo_matrix(...).tocsr()` sums duplicate positions, and the
builder emits none). -/
def rowDot (u : ℕ → ℚ) (r : ℕ) (l : List (ℕ × ℕ × ℚ)) : ℚ :=
  ((l.filter fun e => decide (e.1 = r)).map fun e => e.2.2 * u e.2.1).sum

/-! ## The naive matrix-free kernel `discretise_poisson_gpu` (cell 7) -/

/-- Body of the naive kernel for thread `(i, j)` (already inside the `i < N`,
`j < N` guards): identity on boundary points, otherwise the 5-point stencil
`(N-1)² (4 center - up - down - left - right)`. -/
def gpuNaive (N : ℕ) (u : ℕ → ℚ) (i j : ℕ) : ℚ :=
  if isBoundary N i j then u (j * N + i)
  else
    coef N *
      (4 * u (j * N + i) - u (upIdx N i j) - u (downIdx N i j) -
        u (leftIdx N i j) - u (rightIdx N i j))

/-- Output of the naive kernel at flat position `k = j * N + i`. -/
def naiveOut (N : ℕ) (u : ℕ → ℚ) (k : ℕ) : ℚ := gpuNaive N u (k % N) (k / N)

/-! ## The shared-memory tiled kernel `discretise_poisson_gpu_2` (cell 13) -/

/-- Thread block size of interior points (`SX = 32` in the source). -/
def SX : ℕ := 32

/-- Thread block size of interior points (`SY = 32` in the source). -/
def SY : ℕ := 32

/-- Local buffer extent including the halo (`haloSX = SX + 2`). -/
def haloSX : ℕ := SX + 2

/-- Local buffer extent including the halo (`haloSY = SY + 2`). -/
def haloSY : ℕ := SY + 2

/-- The ordered list of writes to the shared array `local_u` performed by the
thread with local position `(i, j)` in block `(bi, bj)`, in the program order of
the kernel body: interior load, the four halo loads, then the four
global-boundary zero overrides.  A thread whose global position `(pi, pj)` falls
outside the interior grid returns before writing anything.  The numba index
`local_u[-1, ...]` denotes the last row, i.e. index `haloSX - 1`. -/
def threadWrites (N bi bj i j : ℕ) (u : ℕ → ℚ) : List ((ℕ × ℕ) × ℚ) :=
  let pi := bi * SX + i
  let pj := bj * SY + j
  if N - 2 ≤ pi ∨ N - 2 ≤ pj then []
  else
    let pk := pj * (N - 2) + pi
    [((i + 1, j + 1), u pk)] ++
    (if i = 0 ∧ pi ≠ 0 then [((i, j + 1), u (pk - 1))] else []) ++
    (if j = 0 ∧ pj ≠ 0 then [((i + 1, j), u (pk - (N - 2)))] else []) ++
    (if i = SX - 1 ∧ pi ≠ N - 2 - 1 then [((haloSX - 1, j + 1), u (pk + 1))] else []) ++
    (if j = SY - 1 ∧ pj ≠ N - 2 - 1 then [((i + 1, haloSY - 1), u (pk + (N - 2)))] else []) ++
    (if pi = 0 then [((i, j + 1), (0 : ℚ))] else []) ++
    (if pj = 0 then [((i + 1, j), (0 : ℚ))] else []) ++
    (if pi = N - 2 - 1 then [((i + 2, j + 1), (0 : ℚ))] else []) ++
    (if pj = N - 2 - 1 then [((i + 1, j + 2), (0 : ℚ))] else [])

/-- All writes to `local_u` performed by the work-group of block `(bi, bj)`
before the `cuda.syncthreads()` barrier (threads in a fixed order; the proofs
below show every cell has at most one writing thread, so the order between
threads is immaterial). -/
def tileWrites (N bi bj : ℕ) (u : ℕ → ℚ) : List ((ℕ × ℕ) × ℚ) :=
  (List.range SY).flatMap fun j =>
    (List.range SX).flatMap fun i => threadWrites N bi bj i j u

/-- Replay a list of writes over an initial buffer, later writes winning. -/
def writeSeq (init : ℕ × ℕ → ℚ) (l : List ((ℕ × ℕ) × ℚ)) : ℕ × ℕ → ℚ :=
  l.foldl (fun b e => Function.update b e.1 e.2) init

/-- Contents of the shared array `local_u` of block `(bi, bj)` at the
`cuda.syncthreads()` barrier, starting from uninitialised contents `init`. -/
def localBuf (N bi bj : ℕ) (u : ℕ → ℚ) (init : ℕ × ℕ → ℚ) : ℕ × ℕ → ℚ :=
  writeSeq init (tileWrites N bi bj u)

/-- Compute phase of the tiled kernel for the thread at local position `(i, j)`:
reads its five stencil cells from the shared buffer and forms
`(N-1)² (4 center - up - down - left - right) + ω² center`. -/
def tileCompute (N : ℕ) (ω : ℚ) (buf : ℕ × ℕ → ℚ) (i j : ℕ) : ℚ :=
  let up := buf (i + 2, j + 1)
  let down := buf (i, j + 1)
  let left := buf (i + 1, j)
  let right := buf (i + 1, j + 2)
  let center := buf (i + 1, j + 1)
  coef N * (4 * center - up - down - left - right) + ω ^ 2 * center

/-- Output of the tiled kernel at interior flat position `pk`: the unique active
thread writing `f[pk]` is `(pi % SX, pj % SY)` of block `(pi / SX, pj / SY)`
where `pi = pk % (N-2)`, `pj = pk / (N-2)`. -/
def gpu2out (N : ℕ) (ω : ℚ) (u : ℕ → ℚ) (init : ℕ × ℕ → ℚ) (pk : ℕ) : ℚ :=
  let pi := pk % (N - 2)
  let pj := pk / (N - 2)
  tileCompute N ω (localBuf N (pi / SX) (pj / SY) u init) (pi % SX) (pj % SY)

/-- Zero-padding of an interior-only vector to the full grid, as in the
validation cell of the notebook (`np.pad(..., pad_with)` with zero padder):
boundary positions hold 0, position `j * N + i` with `0 < i, j < N - 1` holds
interior entry `(j - 1) * (N - 2) + (i - 1)`. -/
def padInterior (N : ℕ) (u : ℕ → ℚ) (k : ℕ) : ℚ :=
  if isBoundary N (k % N) (k / N) then 0
  else u ((k / N - 1) * (N - 2) + (k % N - 1))

/-! ## Proof infrastructure: last-write-wins bookkeeping -/

/-- The values successively written to cell `c` by a write list, in order. -/
def keyWrites (c : ℕ × ℕ) : List ((ℕ × ℕ) × ℚ) → List ℚ
  | [] => []
  | e :: t => if e.1 = c then e.2 :: keyWrites c t else keyWrites c t

/-- Last element of a list, or the default for the empty list. -/
def lastD (d : ℚ) : List ℚ → ℚ
  | [] => d
  | v :: t => lastD v t

/-! ## Spec-modelled Helmholtz builder

The ω-parameterised sparse builder described in §4.2 of the specification lives
in the Helmholtz notebook of the repository, which is not among the provided
source files; only the Poisson instance (`ω = 0`) is.  It is modelled here from
the specification's words. -/

/-- Modelled from the spec: one row block of `build(N, ω)` (§4.2) — the
ω-parameterised builder of the Helmholtz notebook, absent from the provided
sources.  "if boundary, emit one entry (k,k,1.0) ... Else emit five entries:
(k,k, 4(N−1)² + ω²), (k, k+1, −(N−1)²), (k, k−1, −(N−1)²), (k, k+N, −(N−1)²),
(k, k−N, −(N−1)²)" — written with the source builder's index expressions. -/
def helmholtzBlock (N : ℕ) (ω : ℚ) (i j : ℕ) : List (ℕ × ℕ × ℚ) :=
  if isBoundary N i j then [(j * N + i, j * N + i, 1)]
  else
    [(j * N + i, j * N + i, 4 * coef N + ω ^ 2),
     (j * N + i, j * N + i + 1, -coef N),
     (j * N + i, j * N + i - 1, -coef N),
     (j * N + i, (j + 1) * N + i, -coef N),
     (j * N + i, (j - 1) * N + i, -coef N)]

/-- Modelled from the spec: all triplets of `build(N, ω)` in row-major emission
order (§4.2, "row-major by k, then center/right/left/down/up"). -/
def helmholtzEntries (N : ℕ) (ω : ℚ) : List (ℕ × ℕ × ℚ) :=
  (List.range N).flatMap fun j =>
    (List.range N).flatMap fun i => helmholtzBlock N ω i j

/-- Modelled from the spec: the right-hand side of `build(N, ω)`
("set f[k]=0" on the boundary, "set f[k]=1" in the interior). -/
def helmholtz_f (N : ℕ) : List ℚ :=
  (List.range N).flatMap fun j =>
    (List.range N).map fun i => if isBoundary N i j then (0 : ℚ) else 1

/-! ## Basic lemmas on the write-replay semantics -/

theorem SX_eq : SX = 32 := rfl

theorem SY_eq : SY = 32 := rfl

theorem haloSX_eq : haloSX = 34 := rfl

theorem haloSY_eq : haloSY = 34 := rfl

/-- Local alias of `if_neg`, used to discharge the per-block case analyses. -/
theorem if_of_neg {c : Prop} [Decidable c] {α : Sort _} {t e : α} (hnc : ¬c) :
    (if c then t else e) = e := if_neg hnc

/-- Local alias of `if_pos`, used to discharge the per-block case analyses. -/
theorem if_of_pos {c : Prop} [Decidable c] {α : Sort _} {t e : α} (hc : c) :
    (if c then t else e) = t := if_pos hc

theorem writeSeq_cons (init : ℕ × ℕ → ℚ) (e : (ℕ × ℕ) × ℚ) (t : List ((ℕ × ℕ) × ℚ)) :
    writeSeq init (e :: t) = writeSeq (Function.update init e.1 e.2) t := rfl

/-- The value of a cell after replaying a write list is the last value written to
that cell, or the initial value if the cell is never written. -/
theorem writeSeq_eq (init : ℕ × ℕ → ℚ) (l : List ((ℕ × ℕ) × ℚ)) (c : ℕ × ℕ) :
    writeSeq init l c = lastD (init c) (keyWrites c l) := by
  induction l generalizing init with
  | nil => rfl
  | cons e t ih =>
    rw [writeSeq_cons, ih, keyWrites]
    by_cases h : e.1 = c
    · rw [if_pos h, h, lastD, Function.update_same]
    · rw [if_neg h, Function.update_noteq (by exact fun hc => h hc.symm)]

theorem keyWrites_append (c : ℕ × ℕ) (l₁ l₂ : List ((ℕ × ℕ) × ℚ)) :
    keyWrites c (l₁ ++ l₂) = keyWrites c l₁ ++ keyWrites c l₂ := by
  induction l₁ with
  | nil => rfl
  | cons e t ih =>
    rw [List.cons_append, keyWrites, keyWrites]
    by_cases h : e.1 = c
    · rw [if_pos h, if_pos h, ih, List.cons_append]
    · rw [if_neg h, if_neg h, ih]

theorem keyWrites_flatMap {α : Type} (c : ℕ × ℕ) (L : List α) (g : α → List ((ℕ × ℕ) × ℚ)) :
    keyWrites c (L.flatMap g) = L.flatMap fun x => keyWrites c (g x) := by
  induction L with
  | nil => rfl
  | cons x t ih => rw [List.flatMap_cons, List.flatMap_cons, keyWrites_append, ih]

theorem keyWrites_eq_nil (c : ℕ × ℕ) (l : List ((ℕ × ℕ) × ℚ))
    (h : ∀ e ∈ l, e.1 ≠ c) : keyWrites c l = [] := by
  induction l with
  | nil => rfl
  | cons e t ih =>
    rw [keyWrites, if_neg (h e (by simp))]
    exact ih fun e' he' => h e' (by simp [he'])

theorem kw_one_eq (a b : ℕ) (v : ℚ) : keyWrites (a, b) [((a, b), v)] = [v] := by
  simp [keyWrites]

theorem kw_one_ne (a b a₀ b₀ : ℕ) (v : ℚ) (h : ¬(a = a₀ ∧ b = b₀)) :
    keyWrites (a₀, b₀) [((a, b), v)] = [] := by
  simp [keyWrites, Prod.mk.injEq]
  exact fun h1 h2 => absurd ⟨h1, h2⟩ h

theorem kw_ite_ne (p : Prop) [Decidable p] (a b a₀ b₀ : ℕ) (v : ℚ)
    (h : ¬(p ∧ a = a₀ ∧ b = b₀)) :
    keyWrites (a₀, b₀) (if p then [((a, b), v)] else []) = [] := by
  by_cases hp : p
  · rw [if_pos hp]
    exact kw_one_ne a b a₀ b₀ v fun hab => h ⟨hp, hab⟩
  · rw [if_neg hp]; rfl

theorem kw_ite_eq (p : Prop) [Decidable p] (a b : ℕ) (v : ℚ) (hp : p) :
    keyWrites (a, b) (if p then [((a, b), v)] else []) = [v] := by
  rw [if_pos hp]; exact kw_one_eq a b v

theorem kw_one (a b a₀ b₀ : ℕ) (v : ℚ) :
    keyWrites (a₀, b₀) [((a, b), v)] = if a = a₀ ∧ b = b₀ then [v] else [] := by
  by_cases h : a = a₀ ∧ b = b₀
  · obtain ⟨h1, h2⟩ := h
    subst h1; subst h2
    rw [if_pos ⟨rfl, rfl⟩]
    exact kw_one_eq a b v
  · rw [if_neg h]
    exact kw_one_ne a b a₀ b₀ v h

theorem kw_ite (p : Prop) [Decidable p] (a b a₀ b₀ : ℕ) (v : ℚ) :
    keyWrites (a₀, b₀) (if p then [((a, b), v)] else []) =
      if p ∧ a = a₀ ∧ b = b₀ then [v] else [] := by
  by_cases hp : p
  · rw [if_pos hp, kw_one]
    by_cases hab : a = a₀ ∧ b = b₀
    · rw [if_pos hab, if_pos ⟨hp, hab⟩]
    · rw [if_neg hab, if_neg fun hc => hab hc.2]
  · rw [if_neg hp, if_neg fun hc => hp hc.1]
    rfl

theorem mem_ite_singleton {α : Type} {e x : α} {p : Prop} [Decidable p] :
    (e ∈ if p then [x] else []) ↔ p ∧ e = x := by
  split <;> simp_all

theorem flatMap_nil_of {α : Type} (g : ℕ → List α) (n : ℕ) (h : ∀ x < n, g x = []) :
    (List.range n).flatMap g = [] := by
  induction n with
  | zero => rfl
  | succ m ih =>
    rw [List.range_succ, List.flatMap_append, ih fun x hx => h x (by omega)]
    simp [h m (by omega)]

theorem range_flatMap_single {α : Type} (g : ℕ → List α) (n x₀ : ℕ) (hx : x₀ < n)
    (h : ∀ x < n, x ≠ x₀ → g x = []) : (List.range n).flatMap g = g x₀ := by
  induction n with
  | zero => omega
  | succ m ih =>
    rw [List.range_succ, List.flatMap_append]
    by_cases hm : x₀ = m
    · rw [flatMap_nil_of g m fun x hx' => h x (by omega) (by omega)]
      simp [hm]
    · rw [ih (by omega) fun x hx' hne => h x (by omega) hne]
      simp [h m (by omega) fun hc => hm hc.symm]

theorem range_flatMap_pair {α : Type} (g : ℕ → List α) (n x₀ x₁ : ℕ)
    (hlt : x₀ < x₁) (hx : x₁ < n)
    (h : ∀ x < n, x ≠ x₀ → x ≠ x₁ → g x = []) :
    (List.range n).flatMap g = g x₀ ++ g x₁ := by
  induction n with
  | zero => omega
  | succ m ih =>
    rw [List.range_succ, List.flatMap_append]
    by_cases hm : x₁ = m
    · rw [range_flatMap_single g m x₀ (by omega) fun x hx' hne => h x (by omega) hne (by omega)]
      simp [hm]
    · rw [ih (by omega) fun x hx' hne₀ hne₁ => h x (by omega) hne₀ hne₁]
      simp [h m (by omega) (by omega) fun hc => hm hc.symm]

/-! ## Which thread writes which cell

For an active thread `(i, j)` (global position inside the interior grid), each
of the five cells its compute phase reads has exactly one writing thread.  The
next five lemmas show no *other* thread ever writes the cell in question. -/

theorem notin_center (N bi bj i j i' j' : ℕ) (u : ℕ → ℚ)
    (hi : i < 32) (hj : j < 32)
    (hpi : bi * 32 + i < N - 2) (hpj : bj * 32 + j < N - 2)
    (hne : ¬(i' = i ∧ j' = j)) :
    ∀ e ∈ threadWrites N bi bj i' j' u, e.1 ≠ (i + 1, j + 1) := by
  intro e he hc
  simp only [threadWrites, SX, SY, haloSX, haloSY] at he
  by_cases hact : N - 2 ≤ bi * 32 + i' ∨ N - 2 ≤ bj * 32 + j'
  · rw [if_pos hact] at he
    simp at he
  · rw [if_neg hact] at he
    simp only [List.mem_append, mem_ite_singleton, List.mem_singleton, or_assoc] at he
    rcases he with rfl | ⟨hcond, rfl⟩ | ⟨hcond, rfl⟩ | ⟨hcond, rfl⟩ | ⟨hcond, rfl⟩ |
      ⟨hcond, rfl⟩ | ⟨hcond, rfl⟩ | ⟨hcond, rfl⟩ | ⟨hcond, rfl⟩ <;>
      simp only [Prod.mk.injEq] at hc <;> omega

theorem notin_down (N bi bj i j i' j' : ℕ) (u : ℕ → ℚ)
    (hi : i < 32) (hj : j < 32)
    (hpi : bi * 32 + i < N - 2) (hpj : bj * 32 + j < N - 2)
    (hne : ¬(i' = i - 1 ∧ j' = j)) :
    ∀ e ∈ threadWrites N bi bj i' j' u, e.1 ≠ (i, j + 1) := by
  intro e he hc
  simp only [threadWrites, SX, SY, haloSX, haloSY] at he
  by_cases hact : N - 2 ≤ bi * 32 + i' ∨ N - 2 ≤ bj * 32 + j'
  · rw [if_pos hact] at he
    simp at he
  · rw [if_neg hact] at he
    simp only [List.mem_append, mem_ite_singleton, List.mem_singleton, or_assoc] at he
    rcases he with rfl | ⟨hcond, rfl⟩ | ⟨hcond, rfl⟩ | ⟨hcond, rfl⟩ | ⟨hcond, rfl⟩ |
      ⟨hcond, rfl⟩ | ⟨hcond, rfl⟩ | ⟨hcond, rfl⟩ | ⟨hcond, rfl⟩ <;>
      simp only [Prod.mk.injEq] at hc <;> omega

theorem notin_up (N bi bj i j i' j' : ℕ) (u : ℕ → ℚ)
    (hi : i < 32) (hj : j < 32)
    (hpi : bi * 32 + i < N - 2) (hpj : bj * 32 + j < N - 2)
    (hne₀ : ¬(i' = i ∧ j' = j)) (hne₁ : ¬(i' = i + 1 ∧ j' = j)) :
    ∀ e ∈ threadWrites N bi bj i' j' u, e.1 ≠ (i + 2, j + 1) := by
  intro e he hc
  simp only [threadWrites, SX, SY, haloSX, haloSY] at he
  by_cases hact : N - 2 ≤ bi * 32 + i' ∨ N - 2 ≤ bj * 32 + j'
  · rw [if_pos hact] at he
    simp at he
  · rw [if_neg hact] at he
    simp only [List.mem_append, mem_ite_singleton, List.mem_singleton, or_assoc] at he
    rcases he with rfl | ⟨hcond, rfl⟩ | ⟨hcond, rfl⟩ | ⟨hcond, rfl⟩ | ⟨hcond, rfl⟩ |
      ⟨hcond, rfl⟩ | ⟨hcond, rfl⟩ | ⟨hcond, rfl⟩ | ⟨hcond, rfl⟩ <;>
      simp only [Prod.mk.injEq] at hc <;> omega

theorem notin_left (N bi bj i j i' j' : ℕ) (u : ℕ → ℚ)
    (hi : i < 32) (hj : j < 32)
    (hpi : bi * 32 + i < N - 2) (hpj : bj * 32 + j < N - 2)
    (hne : ¬(i' = i ∧ j' = j - 1)) :
    ∀ e ∈ threadWrites N bi bj i' j' u, e.1 ≠ (i + 1, j) := by
  intro e he hc
  simp only [threadWrites, SX, SY, haloSX, haloSY] at he
  by_cases hact : N - 2 ≤ bi * 32 + i' ∨ N - 2 ≤ bj * 32 + j'
  · rw [if_pos hact] at he
    simp at he
  · rw [if_neg hact] at he
    simp only [List.mem_append, mem_ite_singleton, List.mem_singleton, or_assoc] at he
    rcases he with rfl | ⟨hcond, rfl⟩ | ⟨hcond, rfl⟩ | ⟨hcond, rfl⟩ | ⟨hcond, rfl⟩ |
      ⟨hcond, rfl⟩ | ⟨hcond, rfl⟩ | ⟨hcond, rfl⟩ | ⟨hcond, rfl⟩ <;>
      simp only [Prod.mk.injEq] at hc <;> omega

theorem notin_right (N bi bj i j i' j' : ℕ) (u : ℕ → ℚ)
    (hi : i < 32) (hj : j < 32)
    (hpi : bi * 32 + i < N - 2) (hpj : bj * 32 + j < N - 2)
    (hne₀ : ¬(i' = i ∧ j' = j)) (hne₁ : ¬(i' = i ∧ j' = j + 1)) :
    ∀ e ∈ threadWrites N bi bj i' j' u, e.1 ≠ (i + 1, j + 2) := by
  intro e he hc
  simp only [threadWrites, SX, SY, haloSX, haloSY] at he
  by_cases hact : N - 2 ≤ bi * 32 + i' ∨ N - 2 ≤ bj * 32 + j'
  · rw [if_pos hact] at he
    simp at he
  · rw [if_neg hact] at he
    simp only [List.mem_append, mem_ite_singleton, List.mem_singleton, or_assoc] at he
    rcases he with rfl | ⟨hcond, rfl⟩ | ⟨hcond, rfl⟩ | ⟨hcond, rfl⟩ | ⟨hcond, rfl⟩ |
      ⟨hcond, rfl⟩ | ⟨hcond, rfl⟩ | ⟨hcond, rfl⟩ | ⟨hcond, rfl⟩ <;>
      simp only [Prod.mk.injEq] at hc <;> omega

/-! ## Contents of the shared buffer at the barrier -/

/-- The centre cell `(i+1, j+1)` of an active thread holds its own interior
value at the barrier. -/
theorem buf_center (N bi bj i j : ℕ) (u : ℕ → ℚ) (init : ℕ × ℕ → ℚ)
    (hi : i < 32) (hj : j < 32)
    (hpi : bi * 32 + i < N - 2) (hpj : bj * 32 + j < N - 2) :
    localBuf N bi bj u init (i + 1, j + 1) =
      u ((bj * 32 + j) * (N - 2) + (bi * 32 + i)) := by
  have houter : ∀ x < SY, x ≠ j →
      ((List.range SX).flatMap fun i' =>
        keyWrites (i + 1, j + 1) (threadWrites N bi bj i' x u)) = [] := by
    intro x hx hnex
    refine flatMap_nil_of _ _ fun i' hi' => ?_
    exact keyWrites_eq_nil _ _ (notin_center N bi bj i j i' x u hi hj hpi hpj (by omega))
  have hinner : ∀ x < SX, x ≠ i →
      keyWrites (i + 1, j + 1) (threadWrites N bi bj x j u) = [] := by
    intro x hx hnex
    exact keyWrites_eq_nil _ _ (notin_center N bi bj i j x j u hi hj hpi hpj (by omega))
  have hkey : keyWrites (i + 1, j + 1) (tileWrites N bi bj u) =
      keyWrites (i + 1, j + 1) (threadWrites N bi bj i j u) := by
    rw [tileWrites]
    simp only [keyWrites_flatMap]
    rw [range_flatMap_single _ SY j (by rw [SY_eq]; omega) houter,
        range_flatMap_single _ SX i (by rw [SX_eq]; omega) hinner]
  have hact : ¬(N - 2 ≤ bi * SX + i ∨ N - 2 ≤ bj * SY + j) := by
    rw [SX_eq, SY_eq]; omega
  rw [localBuf, writeSeq_eq, hkey]
  simp only [threadWrites]
  rw [if_neg hact]
  simp only [keyWrites_append, SX_eq, SY_eq, haloSX_eq, haloSY_eq]
  rw [kw_one_eq,
      kw_ite_ne _ _ _ _ _ _ (by omega),
      kw_ite_ne _ _ _ _ _ _ (by omega),
      kw_ite_ne _ _ _ _ _ _ (by omega),
      kw_ite_ne _ _ _ _ _ _ (by omega),
      kw_ite_ne _ _ _ _ _ _ (by omega),
      kw_ite_ne _ _ _ _ _ _ (by omega),
      kw_ite_ne _ _ _ _ _ _ (by omega),
      kw_ite_ne _ _ _ _ _ _ (by omega)]
  simp [lastD]

/-- The cell `(i, j+1)` (the "down" read) of an active thread holds 0 at the
barrier when the thread sits on the global left edge of the interior grid, and
the left interior neighbour's value otherwise. -/
theorem buf_down (N bi bj i j : ℕ) (u : ℕ → ℚ) (init : ℕ × ℕ → ℚ)
    (hi : i < 32) (hj : j < 32)
    (hpi : bi * 32 + i < N - 2) (hpj : bj * 32 + j < N - 2) :
    localBuf N bi bj u init (i, j + 1) =
      if bi * 32 + i = 0 then 0
      else u ((bj * 32 + j) * (N - 2) + (bi * 32 + i) - 1) := by
  have houter : ∀ x < SY, x ≠ j →
      ((List.range SX).flatMap fun i' =>
        keyWrites (i, j + 1) (threadWrites N bi bj i' x u)) = [] := by
    intro x hx hnex
    refine flatMap_nil_of _ _ fun i' hi' => ?_
    exact keyWrites_eq_nil _ _ (notin_down N bi bj i j i' x u hi hj hpi hpj (by omega))
  have hinner : ∀ x < SX, x ≠ i - 1 →
      keyWrites (i, j + 1) (threadWrites N bi bj x j u) = [] := by
    intro x hx hnex
    exact keyWrites_eq_nil _ _ (notin_down N bi bj i j x j u hi hj hpi hpj (by omega))
  have hkey : keyWrites (i, j + 1) (tileWrites N bi bj u) =
      keyWrites (i, j + 1) (threadWrites N bi bj (i - 1) j u) := by
    rw [tileWrites]
    simp only [keyWrites_flatMap]
    rw [range_flatMap_single _ SY j (by rw [SY_eq]; omega) houter,
        range_flatMap_single _ SX (i - 1) (by rw [SX_eq]; omega) hinner]
  have hact : ¬(N - 2 ≤ bi * SX + (i - 1) ∨ N - 2 ≤ bj * SY + j) := by
    rw [SX_eq, SY_eq]; omega
  rw [localBuf, writeSeq_eq, hkey]
  simp only [threadWrites]
  rw [if_neg hact]
  simp only [keyWrites_append, SX_eq, SY_eq, haloSX_eq, haloSY_eq]
  rw [kw_one, kw_ite, kw_ite, kw_ite, kw_ite, kw_ite, kw_ite, kw_ite, kw_ite]
  by_cases hi1 : 1 ≤ i
  · rw [if_neg (by omega : ¬(bi * 32 + i = 0))]
    rw [if_of_pos (by omega), if_of_neg (by omega), if_of_neg (by omega), if_of_neg (by omega),
        if_of_neg (by omega), if_of_neg (by omega), if_of_neg (by omega), if_of_neg (by omega),
        if_of_neg (by omega)]
    have harg : (bj * 32 + j) * (N - 2) + (bi * 32 + (i - 1)) =
        (bj * 32 + j) * (N - 2) + (bi * 32 + i) - 1 := by omega
    simp [lastD, harg]
  · have hi0 : i = 0 := by omega
    subst hi0
    by_cases hp0 : bi * 32 + 0 = 0
    · rw [if_pos hp0]
      rw [if_of_neg (by omega), if_of_neg (by omega), if_of_neg (by omega), if_of_neg (by omega),
          if_of_neg (by omega), if_of_pos (by omega), if_of_neg (by omega), if_of_neg (by omega),
          if_of_neg (by omega)]
      simp [lastD]
    · rw [if_neg hp0]
      rw [if_of_neg (by omega), if_of_pos (by omega), if_of_neg (by omega), if_of_neg (by omega),
          if_of_neg (by omega), if_of_neg (by omega), if_of_neg (by omega), if_of_neg (by omega),
          if_of_neg (by omega)]
      have harg : (bj * 32 + j) * (N - 2) + (bi * 32 + (0 - 1)) - 1 =
          (bj * 32 + j) * (N - 2) + (bi * 32 + 0) - 1 := by omega
      simp [lastD, harg]

/-- The cell `(i+2, j+1)` (the "up" read) of an active thread holds 0 at the
barrier when the thread sits on the global right edge of the interior grid, and
the right interior neighbour's value otherwise. -/
theorem buf_up (N bi bj i j : ℕ) (u : ℕ → ℚ) (init : ℕ × ℕ → ℚ)
    (hi : i < 32) (hj : j < 32)
    (hpi : bi * 32 + i < N - 2) (hpj : bj * 32 + j < N - 2) :
    localBuf N bi bj u init (i + 2, j + 1) =
      if bi * 32 + i = N - 2 - 1 then 0
      else u ((bj * 32 + j) * (N - 2) + (bi * 32 + i) + 1) := by
  have houter : ∀ x < SY, x ≠ j →
      ((List.range SX).flatMap fun i' =>
        keyWrites (i + 2, j + 1) (threadWrites N bi bj i' x u)) = [] := by
    intro x hx hnex
    refine flatMap_nil_of _ _ fun i' hi' => ?_
    exact keyWrites_eq_nil _ _
      (notin_up N bi bj i j i' x u hi hj hpi hpj (by omega) (by omega))
  by_cases hi31 : i = 31
  · have hinner : ∀ x < SX, x ≠ i →
        keyWrites (i + 2, j + 1) (threadWrites N bi bj x j u) = [] := by
      intro x hx hnex
      rw [SX_eq] at hx
      exact keyWrites_eq_nil _ _
        (notin_up N bi bj i j x j u hi hj hpi hpj (by omega) (by omega))
    have hkey : keyWrites (i + 2, j + 1) (tileWrites N bi bj u) =
        keyWrites (i + 2, j + 1) (threadWrites N bi bj i j u) := by
      rw [tileWrites]
      simp only [keyWrites_flatMap]
      rw [range_flatMap_single _ SY j (by rw [SY_eq]; omega) houter,
          range_flatMap_single _ SX i (by rw [SX_eq]; omega) hinner]
    have hact : ¬(N - 2 ≤ bi * SX + i ∨ N - 2 ≤ bj * SY + j) := by
      rw [SX_eq, SY_eq]; omega
    rw [localBuf, writeSeq_eq, hkey]
    simp only [threadWrites]
    rw [if_neg hact]
    simp only [keyWrites_append, SX_eq, SY_eq, haloSX_eq, haloSY_eq]
    rw [kw_one, kw_ite, kw_ite, kw_ite, kw_ite, kw_ite, kw_ite, kw_ite, kw_ite]
    by_cases hc : bi * 32 + i = N - 2 - 1
    · rw [if_pos hc]
      rw [if_of_neg (by omega), if_of_neg (by omega), if_of_neg (by omega), if_of_neg (by omega),
          if_of_neg (by omega), if_of_neg (by omega), if_of_neg (by omega),
          if_of_pos (by omega), if_of_neg (by omega)]
      simp [lastD]
    · rw [if_neg hc]
      rw [if_of_neg (by omega), if_of_neg (by omega), if_of_neg (by omega),
          if_of_pos (by omega), if_of_neg (by omega), if_of_neg (by omega), if_of_neg (by omega),
          if_of_neg (by omega), if_of_neg (by omega)]
      simp [lastD]
  · have hA : keyWrites (i + 2, j + 1) (threadWrites N bi bj i j u) =
        if bi * 32 + i = N - 2 - 1 then [0] else [] := by
      have hact : ¬(N - 2 ≤ bi * SX + i ∨ N - 2 ≤ bj * SY + j) := by
        rw [SX_eq, SY_eq]; omega
      simp only [threadWrites]
      rw [if_neg hact]
      simp only [keyWrites_append, SX_eq, SY_eq, haloSX_eq, haloSY_eq]
      rw [kw_one, kw_ite, kw_ite, kw_ite, kw_ite, kw_ite, kw_ite, kw_ite, kw_ite]
      by_cases hc : bi * 32 + i = N - 2 - 1
      · rw [if_pos hc]
        rw [if_of_neg (by omega), if_of_neg (by omega), if_of_neg (by omega), if_of_neg (by omega),
            if_of_neg (by omega), if_of_neg (by omega), if_of_neg (by omega),
            if_of_pos (by omega), if_of_neg (by omega)]
        simp
      · rw [if_neg hc]
        rw [if_of_neg (by omega), if_of_neg (by omega), if_of_neg (by omega), if_of_neg (by omega),
            if_of_neg (by omega), if_of_neg (by omega), if_of_neg (by omega), if_of_neg (by omega),
            if_of_neg (by omega)]
        simp
    have hinner : ∀ x < SX, x ≠ i → x ≠ i + 1 →
        keyWrites (i + 2, j + 1) (threadWrites N bi bj x j u) = [] := by
      intro x hx hne₀ hne₁
      exact keyWrites_eq_nil _ _
        (notin_up N bi bj i j x j u hi hj hpi hpj (by omega) (by omega))
    have hkey : keyWrites (i + 2, j + 1) (tileWrites N bi bj u) =
        keyWrites (i + 2, j + 1) (threadWrites N bi bj i j u) ++
          keyWrites (i + 2, j + 1) (threadWrites N bi bj (i + 1) j u) := by
      rw [tileWrites]
      simp only [keyWrites_flatMap]
      rw [range_flatMap_single _ SY j (by rw [SY_eq]; omega) houter,
          range_flatMap_pair _ SX i (i + 1) (by omega) (by rw [SX_eq]; omega) hinner]
    rw [localBuf, writeSeq_eq, hkey, hA]
    by_cases hc : bi * 32 + i = N - 2 - 1
    · have hB : keyWrites (i + 2, j + 1) (threadWrites N bi bj (i + 1) j u) = [] := by
        simp only [threadWrites]
        rw [if_pos (by rw [SX_eq, SY_eq]; omega)]
        rfl
      rw [hB, if_pos hc, if_pos hc]
      simp [lastD]
    · have hactB : ¬(N - 2 ≤ bi * SX + (i + 1) ∨ N - 2 ≤ bj * SY + j) := by
        rw [SX_eq, SY_eq]; omega
      have hB : keyWrites (i + 2, j + 1) (threadWrites N bi bj (i + 1) j u) =
          [u ((bj * 32 + j) * (N - 2) + (bi * 32 + (i + 1)))] := by
        simp only [threadWrites]
        rw [if_neg hactB]
        simp only [keyWrites_append, SX_eq, SY_eq, haloSX_eq, haloSY_eq]
        rw [kw_one, kw_ite, kw_ite, kw_ite, kw_ite, kw_ite, kw_ite, kw_ite, kw_ite]
        rw [if_of_pos (by omega), if_of_neg (by omega), if_of_neg (by omega), if_of_neg (by omega),
            if_of_neg (by omega), if_of_neg (by omega), if_of_neg (by omega), if_of_neg (by omega),
            if_of_neg (by omega)]
        simp
      rw [hB, if_neg hc, if_neg hc]
      have harg : (bj * 32 + j) * (N - 2) + (bi * 32 + (i + 1)) =
          (bj * 32 + j) * (N - 2) + (bi * 32 + i) + 1 := by omega
      simp [lastD, harg]

/-- The cell `(i+1, j)` (the "left" read) of an active thread holds 0 at the
barrier when the thread sits on the global top edge of the interior grid, and
the top interior neighbour's value otherwise. -/
theorem buf_left (N bi bj i j : ℕ) (u : ℕ → ℚ) (init : ℕ × ℕ → ℚ)
    (hi : i < 32) (hj : j < 32)
    (hpi : bi * 32 + i < N - 2) (hpj : bj * 32 + j < N - 2) :
    localBuf N bi bj u init (i + 1, j) =
      if bj * 32 + j = 0 then 0
      else u ((bj * 32 + j) * (N - 2) + (bi * 32 + i) - (N - 2)) := by
  have houter : ∀ x < SY, x ≠ j - 1 →
      ((List.range SX).flatMap fun i' =>
        keyWrites (i + 1, j) (threadWrites N bi bj i' x u)) = [] := by
    intro x hx hnex
    refine flatMap_nil_of _ _ fun i' hi' => ?_
    exact keyWrites_eq_nil _ _ (notin_left N bi bj i j i' x u hi hj hpi hpj (by omega))
  have hinner : ∀ x < SX, x ≠ i →
      keyWrites (i + 1, j) (threadWrites N bi bj x (j - 1) u) = [] := by
    intro x hx hnex
    exact keyWrites_eq_nil _ _ (notin_left N bi bj i j x (j - 1) u hi hj hpi hpj (by omega))
  have hkey : keyWrites (i + 1, j) (tileWrites N bi bj u) =
      keyWrites (i + 1, j) (threadWrites N bi bj i (j - 1) u) := by
    rw [tileWrites]
    simp only [keyWrites_flatMap]
    rw [range_flatMap_single _ SY (j - 1) (by rw [SY_eq]; omega) houter,
        range_flatMap_single _ SX i (by rw [SX_eq]; omega) hinner]
  have hact : ¬(N - 2 ≤ bi * SX + i ∨ N - 2 ≤ bj * SY + (j - 1)) := by
    rw [SX_eq, SY_eq]; omega
  rw [localBuf, writeSeq_eq, hkey]
  simp only [threadWrites]
  rw [if_neg hact]
  simp only [keyWrites_append, SX_eq, SY_eq, haloSX_eq, haloSY_eq]
  rw [kw_one, kw_ite, kw_ite, kw_ite, kw_ite, kw_ite, kw_ite, kw_ite, kw_ite]
  by_cases hj1 : 1 ≤ j
  · rw [if_neg (by omega : ¬(bj * 32 + j = 0))]
    rw [if_of_pos (by omega), if_of_neg (by omega), if_of_neg (by omega), if_of_neg (by omega),
        if_of_neg (by omega), if_of_neg (by omega), if_of_neg (by omega), if_of_neg (by omega),
        if_of_neg (by omega)]
    have hexp : (bj * 32 + j) * (N - 2) = (bj * 32 + (j - 1)) * (N - 2) + (N - 2) := by
      have h1 : bj * 32 + j = bj * 32 + (j - 1) + 1 := by omega
      rw [h1, add_one_mul]
    have harg : (bj * 32 + (j - 1)) * (N - 2) + (bi * 32 + i) =
        (bj * 32 + j) * (N - 2) + (bi * 32 + i) - (N - 2) := by
      rw [hexp]; omega
    simp [lastD, harg]
  · have hj0 : j - 1 = j := by omega
    by_cases hp0 : bj * 32 + j = 0
    · rw [if_pos hp0]
      rw [if_of_neg (by omega), if_of_neg (by omega), if_of_neg (by omega), if_of_neg (by omega),
          if_of_neg (by omega), if_of_neg (by omega), if_of_pos (by omega), if_of_neg (by omega),
          if_of_neg (by omega)]
      simp [lastD]
    · rw [if_neg hp0]
      rw [if_of_neg (by omega), if_of_neg (by omega), if_of_pos (by omega), if_of_neg (by omega),
          if_of_neg (by omega), if_of_neg (by omega), if_of_neg (by omega), if_of_neg (by omega),
          if_of_neg (by omega)]
      rw [hj0]
      simp [lastD]

/-- The cell `(i+1, j+2)` (the "right" read) of an active thread holds 0 at the
barrier when the thread sits on the global bottom edge of the interior grid, and
the bottom interior neighbour's value otherwise. -/
theorem buf_right (N bi bj i j : ℕ) (u : ℕ → ℚ) (init : ℕ × ℕ → ℚ)
    (hi : i < 32) (hj : j < 32)
    (hpi : bi * 32 + i < N - 2) (hpj : bj * 32 + j < N - 2) :
    localBuf N bi bj u init (i + 1, j + 2) =
      if bj * 32 + j = N - 2 - 1 then 0
      else u ((bj * 32 + j) * (N - 2) + (bi * 32 + i) + (N - 2)) := by
  by_cases hj31 : j = 31
  · have houter : ∀ x < SY, x ≠ j →
        ((List.range SX).flatMap fun i' =>
          keyWrites (i + 1, j + 2) (threadWrites N bi bj i' x u)) = [] := by
      intro x hx hnex
      rw [SY_eq] at hx
      refine flatMap_nil_of _ _ fun i' hi' => ?_
      exact keyWrites_eq_nil _ _
        (notin_right N bi bj i j i' x u hi hj hpi hpj (by omega) (by omega))
    have hinner : ∀ x < SX, x ≠ i →
        keyWrites (i + 1, j + 2) (threadWrites N bi bj x j u) = [] := by
      intro x hx hnex
      exact keyWrites_eq_nil _ _
        (notin_right N bi bj i j x j u hi hj hpi hpj (by omega) (by omega))
    have hkey : keyWrites (i + 1, j + 2) (tileWrites N bi bj u) =
        keyWrites (i + 1, j + 2) (threadWrites N bi bj i j u) := by
      rw [tileWrites]
      simp only [keyWrites_flatMap]
      rw [range_flatMap_single _ SY j (by rw [SY_eq]; omega) houter,
          range_flatMap_single _ SX i (by rw [SX_eq]; omega) hinner]
    have hact : ¬(N - 2 ≤ bi * SX + i ∨ N - 2 ≤ bj * SY + j) := by
      rw [SX_eq, SY_eq]; omega
    rw [localBuf, writeSeq_eq, hkey]
    simp only [threadWrites]
    rw [if_neg hact]
    simp only [keyWrites_append, SX_eq, SY_eq, haloSX_eq, haloSY_eq]
    rw [kw_one, kw_ite, kw_ite, kw_ite, kw_ite, kw_ite, kw_ite, kw_ite, kw_ite]
    by_cases hc : bj * 32 + j = N - 2 - 1
    · rw [if_pos hc]
      rw [if_of_neg (by omega), if_of_neg (by omega), if_of_neg (by omega), if_of_neg (by omega),
          if_of_neg (by omega), if_of_neg (by omega), if_of_neg (by omega), if_of_neg (by omega),
          if_of_pos (by omega)]
      simp [lastD]
    · rw [if_neg hc]
      rw [if_of_neg (by omega), if_of_neg (by omega), if_of_neg (by omega), if_of_neg (by omega),
          if_of_pos (by omega), if_of_neg (by omega), if_of_neg (by omega), if_of_neg (by omega),
          if_of_neg (by omega)]
      simp [lastD]
  · have houter : ∀ x < SY, x ≠ j → x ≠ j + 1 →
        ((List.range SX).flatMap fun i' =>
          keyWrites (i + 1, j + 2) (threadWrites N bi bj i' x u)) = [] := by
      intro x hx hne₀ hne₁
      refine flatMap_nil_of _ _ fun i' hi' => ?_
      exact keyWrites_eq_nil _ _
        (notin_right N bi bj i j i' x u hi hj hpi hpj (by omega) (by omega))
    have hinnerA : ∀ x < SX, x ≠ i →
        keyWrites (i + 1, j + 2) (threadWrites N bi bj x j u) = [] := by
      intro x hx hnex
      exact keyWrites_eq_nil _ _
        (notin_right N bi bj i j x j u hi hj hpi hpj (by omega) (by omega))
    have hinnerB : ∀ x < SX, x ≠ i →
        keyWrites (i + 1, j + 2) (threadWrites N bi bj x (j + 1) u) = [] := by
      intro x hx hnex
      exact keyWrites_eq_nil _ _
        (notin_right N bi bj i j x (j + 1) u hi hj hpi hpj (by omega) (by omega))
    have hA : keyWrites (i + 1, j + 2) (threadWrites N bi bj i j u) =
        if bj * 32 + j = N - 2 - 1 then [0] else [] := by
      have hact : ¬(N - 2 ≤ bi * SX + i ∨ N - 2 ≤ bj * SY + j) := by
        rw [SX_eq, SY_eq]; omega
      simp only [threadWrites]
      rw [if_neg hact]
      simp only [keyWrites_append, SX_eq, SY_eq, haloSX_eq, haloSY_eq]
      rw [kw_one, kw_ite, kw_ite, kw_ite, kw_ite, kw_ite, kw_ite, kw_ite, kw_ite]
      by_cases hc : bj * 32 + j = N - 2 - 1
      · rw [if_pos hc]
        rw [if_of_neg (by omega), if_of_neg (by omega), if_of_neg (by omega), if_of_neg (by omega),
            if_of_neg (by omega), if_of_neg (by omega), if_of_neg (by omega), if_of_neg (by omega),
            if_of_pos (by omega)]
        simp
      · rw [if_neg hc]
        rw [if_of_neg (by omega), if_of_neg (by omega), if_of_neg (by omega), if_of_neg (by omega),
            if_of_neg (by omega), if_of_neg (by omega), if_of_neg (by omega), if_of_neg (by omega),
            if_of_neg (by omega)]
        simp
    have hkey : keyWrites (i + 1, j + 2) (tileWrites N bi bj u) =
        ((List.range SX).flatMap fun i' =>
          keyWrites (i + 1, j + 2) (threadWrites N bi bj i' j u)) ++
        ((List.range SX).flatMap fun i' =>
          keyWrites (i + 1, j + 2) (threadWrites N bi bj i' (j + 1) u)) := by
      rw [tileWrites]
      simp only [keyWrites_flatMap]
      rw [range_flatMap_pair _ SY j (j + 1) (by omega) (by rw [SY_eq]; omega) houter]
    rw [localBuf, writeSeq_eq, hkey,
        range_flatMap_single _ SX i (by rw [SX_eq]; omega) hinnerA,
        range_flatMap_single _ SX i (by rw [SX_eq]; omega) hinnerB, hA]
    by_cases hc : bj * 32 + j = N - 2 - 1
    · have hB : keyWrites (i + 1, j + 2) (threadWrites N bi bj i (j + 1) u) = [] := by
        simp only [threadWrites]
        rw [if_pos (by rw [SX_eq, SY_eq]; omega)]
        rfl
      rw [hB, if_pos hc, if_pos hc]
      simp [lastD]
    · have hactB : ¬(N - 2 ≤ bi * SX + i ∨ N - 2 ≤ bj * SY + (j + 1)) := by
        rw [SX_eq, SY_eq]; omega
      have hB : keyWrites (i + 1, j + 2) (threadWrites N bi bj i (j + 1) u) =
          [u ((bj * 32 + (j + 1)) * (N - 2) + (bi * 32 + i))] := by
        simp only [threadWrites]
        rw [if_neg hactB]
        simp only [keyWrites_append, SX_eq, SY_eq, haloSX_eq, haloSY_eq]
        rw [kw_one, kw_ite, kw_ite, kw_ite, kw_ite, kw_ite, kw_ite, kw_ite, kw_ite]
        rw [if_of_pos (by omega), if_of_neg (by omega), if_of_neg (by omega), if_of_neg (by omega),
            if_of_neg (by omega), if_of_neg (by omega), if_of_neg (by omega), if_of_neg (by omega),
            if_of_neg (by omega)]
        simp
      rw [hB, if_neg hc, if_neg hc]
      have hexp : (bj * 32 + (j + 1)) * (N - 2) = (bj * 32 + j) * (N - 2) + (N - 2) := by
        have h1 : bj * 32 + (j + 1) = bj * 32 + j + 1 := by omega
        rw [h1, add_one_mul]
      have harg : (bj * 32 + (j + 1)) * (N - 2) + (bi * 32 + i) =
          (bj * 32 + j) * (N - 2) + (bi * 32 + i) + (N - 2) := by
        rw [hexp]; omega
      simp [lastD, harg]

/-- Row-major flattening stays inside the square. -/
theorem flat_lt (m a b : ℕ) (ha : a < m) (hb : b < m) : a * m + b < m * m := by
  have h1 : a * m + b < (a + 1) * m := by
    rw [add_one_mul]; omega
  have h2 : (a + 1) * m ≤ m * m := Nat.mul_le_mul_right m (by omega)
  omega

/-- Closed form of the tiled kernel's output: for any interior flat position and
any initial shared-memory contents, the output is the 5-point stencil on the
interior vector with zero Dirichlet values outside the interior grid, plus the
`ω²` mass term. -/
theorem gpu2out_eval (N : ℕ) (ω : ℚ) (u : ℕ → ℚ) (init : ℕ × ℕ → ℚ) (pk : ℕ)
    (hpk : pk < (N - 2) * (N - 2)) :
    gpu2out N ω u init pk =
      coef N * (4 * u pk
        - (if pk % (N - 2) = N - 2 - 1 then 0 else u (pk + 1))
        - (if pk % (N - 2) = 0 then 0 else u (pk - 1))
        - (if pk / (N - 2) = 0 then 0 else u (pk - (N - 2)))
        - (if pk / (N - 2) = N - 2 - 1 then 0 else u (pk + (N - 2)))) +
      ω ^ 2 * u pk := by
  have hN : 0 < N - 2 := by
    rcases Nat.eq_zero_or_pos (N - 2) with h | h
    · rw [h] at hpk; simp at hpk
    · exact h
  have hpi : pk % (N - 2) < N - 2 := Nat.mod_lt _ hN
  have hpj : pk / (N - 2) < N - 2 := (Nat.div_lt_iff_lt_mul hN).mpr hpk
  have hsi : pk % (N - 2) / 32 * 32 + pk % (N - 2) % 32 = pk % (N - 2) := by omega
  have hsj : pk / (N - 2) / 32 * 32 + pk / (N - 2) % 32 = pk / (N - 2) := by omega
  have hdm : pk / (N - 2) * (N - 2) + pk % (N - 2) = pk := Nat.div_add_mod' pk (N - 2)
  simp only [gpu2out, tileCompute, SX_eq, SY_eq]
  rw [buf_center N (pk % (N - 2) / 32) (pk / (N - 2) / 32) (pk % (N - 2) % 32)
        (pk / (N - 2) % 32) u init (by omega) (by omega) (by omega) (by omega),
      buf_up N (pk % (N - 2) / 32) (pk / (N - 2) / 32) (pk % (N - 2) % 32)
        (pk / (N - 2) % 32) u init (by omega) (by omega) (by omega) (by omega),
      buf_down N (pk % (N - 2) / 32) (pk / (N - 2) / 32) (pk % (N - 2) % 32)
        (pk / (N - 2) % 32) u init (by omega) (by omega) (by omega) (by omega),
      buf_left N (pk % (N - 2) / 32) (pk / (N - 2) / 32) (pk % (N - 2) % 32)
        (pk / (N - 2) % 32) u init (by omega) (by omega) (by omega) (by omega),
      buf_right N (pk % (N - 2) / 32) (pk / (N - 2) / 32) (pk % (N - 2) % 32)
        (pk / (N - 2) % 32) u init (by omega) (by omega) (by omega) (by omega)]
  rw [hsi, hsj, hdm]

/-! ## Row structure of the sparse builder -/

theorem flat_mod (N a b : ℕ) (hb : b < N) : (a * N + b) % N = b := by
  rw [add_comm, mul_comm, Nat.add_mul_mod_self_left, Nat.mod_eq_of_lt hb]

theorem flat_div (N a b : ℕ) (hb : b < N) : (a * N + b) / N = a := by
  rw [add_comm, mul_comm, Nat.add_mul_div_left _ _ (by omega : 0 < N),
    Nat.div_eq_of_lt hb, zero_add]

theorem flat_inj (N i j i' j' : ℕ) (hi : i < N) (hi' : i' < N)
    (h : j' * N + i' = j * N + i) : i' = i ∧ j' = j := by
  have h1 : (j' * N + i') % N = i' := flat_mod N j' i' hi'
  have h2 : (j * N + i) % N = i := flat_mod N j i hi
  have hii : i' = i := by rw [← h1, ← h2, h]
  refine ⟨hii, ?_⟩
  have hjj : j' * N = j * N := by omega
  exact Nat.eq_of_mul_eq_mul_right (by omega) hjj

/-- Every triplet emitted at loop position `(i, j)` has row index `j * N + i`. -/
theorem helmholtzBlock_row (N : ℕ) (ω : ℚ) (i j : ℕ) :
    ∀ e ∈ helmholtzBlock N ω i j, e.1 = j * N + i := by
  intro e he
  rw [helmholtzBlock] at he
  split at he
  · simp only [List.mem_singleton] at he
    rw [he]
  · simp only [List.mem_cons, List.not_mem_nil, or_false] at he
    rcases he with rfl | rfl | rfl | rfl | rfl <;> rfl

/-- Filtering the emitted triplets by row `j * N + i` recovers exactly the block
emitted at loop position `(i, j)`: distinct loop positions emit distinct rows. -/
theorem helmholtz_filter (N : ℕ) (ω : ℚ) (i j : ℕ) (hi : i < N) (hj : j < N) :
    (helmholtzEntries N ω).filter (fun e => decide (e.1 = j * N + i)) =
      helmholtzBlock N ω i j := by
  rw [helmholtzEntries]
  simp only [List.filter_flatMap]
  have houter : ∀ x < N, x ≠ j →
      ((List.range N).flatMap fun i' =>
        (helmholtzBlock N ω i' x).filter (fun e => decide (e.1 = j * N + i))) = [] := by
    intro x hx hne
    refine flatMap_nil_of _ _ fun i' hi' => ?_
    rw [List.filter_eq_nil_iff]
    intro e he
    have hrow := helmholtzBlock_row N ω i' x e he
    simp only [decide_eq_true_eq]
    intro hc
    have := flat_inj N i j i' x hi hi' (by rw [← hrow, hc])
    omega
  have hinner : ∀ x < N, x ≠ i →
      (helmholtzBlock N ω x j).filter (fun e => decide (e.1 = j * N + i)) = [] := by
    intro x hx hne
    rw [List.filter_eq_nil_iff]
    intro e he
    have hrow := helmholtzBlock_row N ω x j e he
    simp only [decide_eq_true_eq]
    intro hc
    have := flat_inj N i j x j hi hx (by rw [← hrow, hc])
    omega
  rw [range_flatMap_single _ N j hj houter, range_flatMap_single _ N i hi hinner]
  rw [List.filter_eq_self.mpr]
  intro e he
  simp [helmholtzBlock_row N ω i j e he]

/-- The source Poisson builder is the `ω = 0` instance of the spec's
`build(N, ω)`. -/
theorem poissonBlock_eq (N i j : ℕ) : poissonBlock N i j = helmholtzBlock N 0 i j := by
  rw [poissonBlock, helmholtzBlock]
  split
  · rfl
  · norm_num

theorem poissonEntries_eq (N : ℕ) : poissonEntries N = helmholtzEntries N 0 := by
  rw [poissonEntries, helmholtzEntries]
  simp only [poissonBlock_eq]

/-- One output point of the naive kernel equals the corresponding row of the
assembled sparse matrix applied to the input vector. -/
theorem gpuNaive_eq_rowDot (N : ℕ) (u : ℕ → ℚ) (i j : ℕ) (hi : i < N) (hj : j < N) :
    gpuNaive N u i j = rowDot u (j * N + i) (poissonEntries N) := by
  rw [rowDot, poissonEntries_eq, helmholtz_filter N 0 i j hi hj, gpuNaive, helmholtzBlock]
  by_cases hb : isBoundary N i j
  · rw [if_pos hb, if_pos hb]
    simp
  · rw [if_neg hb, if_neg hb]
    simp only [List.map_cons, List.map_nil, List.sum_cons, List.sum_nil]
    rw [upIdx, downIdx, leftIdx, rightIdx]
    ring

/-! ## Evaluating the zero-padded vector at the five stencil columns -/

theorem pad_center (N : ℕ) (u : ℕ → ℚ) (pi pj : ℕ)
    (hpi : pi < N - 2) (hpj : pj < N - 2) :
    padInterior N u ((pj + 1) * N + (pi + 1)) = u (pj * (N - 2) + pi) := by
  rw [padInterior, flat_mod N (pj + 1) (pi + 1) (by omega),
      flat_div N (pj + 1) (pi + 1) (by omega)]
  rw [if_neg (by simp only [isBoundary]; omega)]
  congr 1

theorem pad_right_col (N : ℕ) (u : ℕ → ℚ) (pi pj : ℕ)
    (hpi : pi < N - 2) (hpj : pj < N - 2) :
    padInterior N u ((pj + 1) * N + (pi + 1) + 1) =
      if pi = N - 2 - 1 then 0 else u (pj * (N - 2) + pi + 1) := by
  have harg : (pj + 1) * N + (pi + 1) + 1 = (pj + 1) * N + (pi + 2) := by omega
  rw [harg, padInterior, flat_mod N (pj + 1) (pi + 2) (by omega),
      flat_div N (pj + 1) (pi + 2) (by omega)]
  by_cases hc : pi = N - 2 - 1
  · rw [if_pos (by simp only [isBoundary]; omega), if_pos hc]
  · rw [if_neg (by simp only [isBoundary]; omega), if_neg hc]
    congr 1

theorem pad_left_col (N : ℕ) (u : ℕ → ℚ) (pi pj : ℕ)
    (hpi : pi < N - 2) (hpj : pj < N - 2) :
    padInterior N u ((pj + 1) * N + (pi + 1) - 1) =
      if pi = 0 then 0 else u (pj * (N - 2) + pi - 1) := by
  have harg : (pj + 1) * N + (pi + 1) - 1 = (pj + 1) * N + pi := by omega
  rw [harg, padInterior, flat_mod N (pj + 1) pi (by omega),
      flat_div N (pj + 1) pi (by omega)]
  by_cases hc : pi = 0
  · rw [if_pos (by simp only [isBoundary]; omega), if_pos hc]
  · rw [if_neg (by simp only [isBoundary]; omega), if_neg hc]
    congr 1
    simp only [Nat.add_sub_cancel]
    omega

theorem pad_up_col (N : ℕ) (u : ℕ → ℚ) (pi pj : ℕ)
    (hpi : pi < N - 2) (hpj : pj < N - 2) :
    padInterior N u ((pj + 1 + 1) * N + (pi + 1)) =
      if pj = N - 2 - 1 then 0 else u (pj * (N - 2) + pi + (N - 2)) := by
  rw [padInterior, flat_mod N (pj + 1 + 1) (pi + 1) (by omega),
      flat_div N (pj + 1 + 1) (pi + 1) (by omega)]
  by_cases hc : pj = N - 2 - 1
  · rw [if_pos (by simp only [isBoundary]; omega), if_pos hc]
  · rw [if_neg (by simp only [isBoundary]; omega), if_neg hc]
    congr 1
    have hexp : (pj + 1) * (N - 2) = pj * (N - 2) + (N - 2) := add_one_mul pj (N - 2)
    have h1 : pj + 1 + 1 - 1 = pj + 1 := by omega
    rw [h1, hexp]
    omega

theorem pad_down_col (N : ℕ) (u : ℕ → ℚ) (pi pj : ℕ)
    (hpi : pi < N - 2) (hpj : pj < N - 2) :
    padInterior N u ((pj + 1 - 1) * N + (pi + 1)) =
      if pj = 0 then 0 else u (pj * (N - 2) + pi - (N - 2)) := by
  have h1 : pj + 1 - 1 = pj := by omega
  rw [h1, padInterior, flat_mod N pj (pi + 1) (by omega),
      flat_div N pj (pi + 1) (by omega)]
  by_cases hc : pj = 0
  · rw [if_pos (by simp only [isBoundary]; omega), if_pos hc]
  · rw [if_neg (by simp only [isBoundary]; omega), if_neg hc]
    congr 1
    have hexp : pj * (N - 2) = (pj - 1) * (N - 2) + (N - 2) := by
      rw [← add_one_mul]
      congr 1
      omega
    rw [hexp]
    omega

/-- The tiled kernel output at any interior position equals the corresponding
row of the spec's `build(N, ω)` operator applied to the zero-padded vector. -/
theorem gpu2out_eq_rowDot (N : ℕ) (ω : ℚ) (u : ℕ → ℚ) (init : ℕ × ℕ → ℚ) (pk : ℕ)
    (hpk : pk < (N - 2) * (N - 2)) :
    gpu2out N ω u init pk =
      rowDot (padInterior N u) ((pk / (N - 2) + 1) * N + (pk % (N - 2) + 1))
        (helmholtzEntries N ω) := by
  have hN : 0 < N - 2 := by
    rcases Nat.eq_zero_or_pos (N - 2) with h | h
    · rw [h] at hpk; simp at hpk
    · exact h
  have hpi : pk % (N - 2) < N - 2 := Nat.mod_lt _ hN
  have hpj : pk / (N - 2) < N - 2 := (Nat.div_lt_iff_lt_mul hN).mpr hpk
  have hdm : pk / (N - 2) * (N - 2) + pk % (N - 2) = pk := Nat.div_add_mod' pk (N - 2)
  have hkey : ∀ X Y : ℕ, X < N - 2 → Y < N - 2 →
      ¬(X + 1 = 0 ∨ X + 1 = N - 1 ∨ Y + 1 = 0 ∨ Y + 1 = N - 1) := by
    intro X Y h1 h2
    omega
  rw [rowDot,
      helmholtz_filter N ω (pk % (N - 2) + 1) (pk / (N - 2) + 1) (by omega) (by omega),
      helmholtzBlock]
  rw [if_neg (by simp only [isBoundary]; exact hkey _ _ hpi hpj)]
  simp only [List.map_cons, List.map_nil, List.sum_cons, List.sum_nil]
  rw [pad_center N u _ _ hpi hpj, pad_right_col N u _ _ hpi hpj,
      pad_left_col N u _ _ hpi hpj, pad_up_col N u _ _ hpi hpj,
      pad_down_col N u _ _ hpi hpj, hdm,
      gpu2out_eval N ω u init pk hpk]
  split_ifs <;> ring

/-! ## Counting the emitted triplets -/

theorem list_range_map_sum {M : Type} [AddCommMonoid M] (f : ℕ → M) (n : ℕ) :
    ((List.range n).map f).sum = ∑ x ∈ Finset.range n, f x := by
  induction n with
  | zero => rfl
  | succ m ih =>
    rw [List.range_succ, List.map_append, List.sum_append, Finset.sum_range_succ, ih]
    simp

theorem poissonBlock_length (N i j : ℕ) :
    (poissonBlock N i j).length = if isBoundary N i j then 1 else 5 := by
  rw [poissonBlock]
  split <;> rfl

theorem poisson_row_length (N j : ℕ) (hN : 2 ≤ N) (hj : j < N) :
    ((((List.range N).flatMap fun i => poissonBlock N i j).length : ℕ) : ℤ) =
      if j = 0 ∨ j = N - 1 then (N : ℤ) else 5 * N - 8 := by
  rw [List.length_flatMap]
  have hm : List.map (List.length ∘ fun i => poissonBlock N i j) (List.range N) =
      List.map (fun i => if isBoundary N i j then 1 else 5) (List.range N) := by
    simp [Function.comp_def, poissonBlock_length]
  rw [hm, list_range_map_sum, Nat.cast_sum]
  by_cases hb : j = 0 ∨ j = N - 1
  · rw [if_pos hb]
    have hone : ∀ x ∈ Finset.range N, ((if isBoundary N x j then 1 else 5 : ℕ) : ℤ) = 1 := by
      intro x hx
      rcases hb with h | h
      · rw [if_pos (show isBoundary N x j from Or.inr (Or.inr (Or.inl h)))]; rfl
      · rw [if_pos (show isBoundary N x j from Or.inr (Or.inr (Or.inr h)))]; rfl
    rw [Finset.sum_congr rfl hone]
    simp
  · rw [if_neg hb]
    have hsum : ∀ x ∈ Finset.range N, ((if isBoundary N x j then 1 else 5 : ℕ) : ℤ) =
        5 - (if x = 0 then (4 : ℤ) else 0) - (if x = N - 1 then (4 : ℤ) else 0) := by
      intro x hx
      by_cases h0 : x = 0
      · rw [if_pos (show isBoundary N x j from Or.inl h0), if_pos h0, if_of_neg (by omega)]
        norm_num
      · by_cases h1 : x = N - 1
        · rw [if_pos (show isBoundary N x j from Or.inr (Or.inl h1)), if_neg h0, if_pos h1]
          norm_num
        · rw [if_neg ?hnb, if_neg h0, if_neg h1]
          · norm_num
          case hnb =>
            simp only [isBoundary]
            push_neg
            exact ⟨h0, h1, fun hc => hb (Or.inl hc), fun hc => hb (Or.inr hc)⟩
    rw [Finset.sum_congr rfl hsum, Finset.sum_sub_distrib, Finset.sum_sub_distrib,
        Finset.sum_const, Finset.card_range,
        Finset.sum_ite_eq' (Finset.range N) 0 (fun _ => (4 : ℤ)),
        Finset.sum_ite_eq' (Finset.range N) (N - 1) (fun _ => (4 : ℤ)),
        if_pos (Finset.mem_range.mpr (by omega)),
        if_pos (Finset.mem_range.mpr (by omega))]
    simp only [nsmul_eq_mul]
    ring

/-- The emitted triplet count is exactly `5N² - 16N + 16` for `N ≥ 2`. -/
theorem poissonEntries_length (N : ℕ) (hN : 2 ≤ N) :
    (((poissonEntries N).length : ℕ) : ℤ) = 5 * (N : ℤ) ^ 2 - 16 * N + 16 := by
  rw [poissonEntries, List.length_flatMap, list_range_map_sum, Nat.cast_sum]
  have hrow : ∀ j ∈ Finset.range N,
      (((List.length ∘ fun j => (List.range N).flatMap fun i => poissonBlock N i j) j : ℕ) : ℤ) =
        5 * N - 8 - (if j = 0 then 4 * (N : ℤ) - 8 else 0) -
          (if j = N - 1 then 4 * (N : ℤ) - 8 else 0) := by
    intro j hj
    rw [Finset.mem_range] at hj
    rw [Function.comp_apply, poisson_row_length N j hN hj]
    by_cases h0 : j = 0
    · rw [if_pos (Or.inl h0), if_pos h0, if_of_neg (by omega)]
      ring
    · by_cases h1 : j = N - 1
      · rw [if_pos (Or.inr h1), if_neg h0, if_pos h1]
        ring
      · rw [if_of_neg (by omega), if_neg h0, if_neg h1]
        ring
  rw [Finset.sum_congr rfl hrow, Finset.sum_sub_distrib, Finset.sum_sub_distrib,
      Finset.sum_const, Finset.card_range,
      Finset.sum_ite_eq' (Finset.range N) 0 (fun _ => 4 * (N : ℤ) - 8),
      Finset.sum_ite_eq' (Finset.range N) (N - 1) (fun _ => 4 * (N : ℤ) - 8),
      if_pos (Finset.mem_range.mpr (by omega)),
      if_pos (Finset.mem_range.mpr (by omega))]
  simp only [nsmul_eq_mul]
  ring

/-- The right-hand side has length `N²`. -/
theorem poisson_f_length (N : ℕ) : (poisson_f N).length = N * N := by
  rw [poisson_f, List.length_flatMap]
  have hm : List.map
      (List.length ∘ fun j => (List.range N).map fun i =>
        if isBoundary N i j then (0 : ℚ) else 1) (List.range N) =
      List.map (Function.const ℕ N) (List.range N) := by
    simp [Function.comp_def]
  rw [hm, List.map_const, List.sum_replicate, List.length_range, smul_eq_mul]

/-- Every emitted coefficient is nonzero for `N ≥ 2`. -/
theorem poissonEntries_nonzero (N : ℕ) (hN : 2 ≤ N) :
    ∀ e ∈ poissonEntries N, e.2.2 ≠ 0 := by
  have hcoef : coef N ≠ 0 := by
    rw [coef]
    exact pow_ne_zero 2 (Nat.cast_ne_zero.mpr (by omega))
  intro e he
  rw [poissonEntries] at he
  simp only [List.mem_flatMap, List.mem_range] at he
  obtain ⟨j, hj, i, hi, hb⟩ := he
  rw [poissonBlock] at hb
  split at hb
  · simp only [List.mem_singleton] at hb
    rw [hb]
    norm_num
  · simp only [List.mem_cons, List.not_mem_nil, or_false] at hb
    rcases hb with rfl | rfl | rfl | rfl | rfl
    · exact mul_ne_zero (by norm_num) hcoef
    · exact neg_ne_zero.mpr hcoef
    · exact neg_ne_zero.mpr hcoef
    · exact neg_ne_zero.mpr hcoef
    · exact neg_ne_zero.mpr hcoef

theorem nodup_range_flatMap {α : Type} (g : ℕ → List α) (n : ℕ)
    (h1 : ∀ x < n, (g x).Nodup)
    (h2 : ∀ x < n, ∀ y < n, x ≠ y → ∀ a ∈ g x, a ∉ g y) :
    ((List.range n).flatMap g).Nodup := by
  induction n with
  | zero => exact List.nodup_nil
  | succ m ih =>
    rw [List.range_succ, List.flatMap_append]
    refine List.Nodup.append
      (ih (fun x hx => h1 x (by omega))
        (fun x hx y hy => h2 x (by omega) y (by omega))) ?_ ?_
    · simp only [List.flatMap_cons, List.flatMap_nil, List.append_nil]
      exact h1 m (by omega)
    · rw [List.disjoint_left]
      intro a ha hb
      rw [List.mem_flatMap] at ha
      obtain ⟨x, hx, hax⟩ := ha
      rw [List.mem_range] at hx
      simp only [List.flatMap_cons, List.flatMap_nil, List.append_nil] at hb
      exact h2 x (by omega) m (by omega) (by omega) a hax hb

theorem poissonBlock_row_of_mem (N i j : ℕ) (e : ℕ × ℕ × ℚ)
    (he : e ∈ poissonBlock N i j) : e.1 = j * N + i := by
  rw [poissonBlock_eq] at he
  exact helmholtzBlock_row N 0 i j e he

/-- No two emitted triplets address the same matrix position, so `tocsr` merges
nothing and the stored nonzero count is the emitted count. -/
theorem poisson_rowcol_nodup (N : ℕ) (hN : 2 ≤ N) :
    ((poissonEntries N).map fun e => (e.1, e.2.1)).Nodup := by
  rw [poissonEntries, List.map_flatMap]
  apply nodup_range_flatMap
  · intro j hj
    rw [List.map_flatMap]
    apply nodup_range_flatMap
    · intro i hi
      by_cases hb : isBoundary N i j
      · rw [poissonBlock, if_pos hb]
        simp
      · have h0i : 0 < i := by
          rcases Nat.eq_zero_or_pos i with h | h
          · exact absurd (Or.inl h) hb
          · exact h
        have h1i : i < N - 1 := by
          by_cases h : i = N - 1
          · exact absurd (Or.inr (Or.inl h)) hb
          · omega
        have h0j : 0 < j := by
          by_cases h : j = 0
          · exact absurd (Or.inr (Or.inr (Or.inl h))) hb
          · omega
        have h1j : j < N - 1 := by
          by_cases h : j = N - 1
          · exact absurd (Or.inr (Or.inr (Or.inr h))) hb
          · omega
        have hjN : N ≤ j * N := Nat.le_mul_of_pos_left N h0j
        have e1 : (j + 1) * N = j * N + N := add_one_mul j N
        have e2 : j * N = (j - 1) * N + N := by
          rw [← add_one_mul]
          congr 1
          omega
        rw [poissonBlock, if_neg hb]
        simp only [List.map_cons, List.map_nil, List.nodup_cons, List.mem_cons,
          List.not_mem_nil, or_false, List.mem_singleton, Prod.mk.injEq, not_or,
          List.nodup_nil, and_true, not_and, true_implies, not_false_eq_true]
        omega
    · intro x hx y hy hxy a hax hay
      rw [List.mem_map] at hax hay
      obtain ⟨ex, hex, hax⟩ := hax
      obtain ⟨ey, hey, hay⟩ := hay
      have hrx := poissonBlock_row_of_mem N x j ex hex
      have hry := poissonBlock_row_of_mem N y j ey hey
      have : a.1 = j * N + x := by rw [← hax, hrx]
      have h2 : a.1 = j * N + y := by rw [← hay, hry]
      have := flat_inj N x j y j hx hy (by omega)
      omega
  · intro x hx y hy hxy a hax hay
    rw [List.map_flatMap, List.mem_flatMap] at hax hay
    obtain ⟨i, hi, hax⟩ := hax
    obtain ⟨i', hi', hay⟩ := hay
    rw [List.mem_range] at hi hi'
    rw [List.mem_map] at hax hay
    obtain ⟨ex, hex, hax⟩ := hax
    obtain ⟨ey, hey, hay⟩ := hay
    have hrx := poissonBlock_row_of_mem N i x ex hex
    have hry := poissonBlock_row_of_mem N i' y ey hey
    have h1 : a.1 = x * N + i := by rw [← hax, hrx]
    have h2 : a.1 = y * N + i' := by rw [← hay, hry]
    have := flat_inj N i x i' y hi hi' (by omega)
    omega

theorem flat_lt_gen (m n a b : ℕ) (ha : a < n) (hb : b < m) : a * m + b < n * m := by
  have h1 : a * m + b < (a + 1) * m := by rw [add_one_mul]; omega
  have h2 : (a + 1) * m ≤ n * m := Nat.mul_le_mul_right m (by omega)
  omega

theorem flatMap_length_const {α : Type} (g : ℕ → List α) (m n : ℕ)
    (hlen : ∀ x, (g x).length = m) : ((List.range n).flatMap g).length = n * m := by
  induction n with
  | zero => simp
  | succ k ih =>
    rw [List.range_succ, List.flatMap_append, List.length_append, ih, add_one_mul]
    simp [hlen k]

theorem range_flatMap_getElem {α : Type} (g : ℕ → List α) (m n j i : ℕ)
    (hlen : ∀ x, (g x).length = m) (hj : j < n) (hi : i < m) :
    ((List.range n).flatMap g)[j * m + i]? = (g j)[i]? := by
  induction n with
  | zero => omega
  | succ k ih =>
    rw [List.range_succ, List.flatMap_append, List.getElem?_append,
        flatMap_length_const g m k hlen]
    by_cases hjk : j = k
    · subst hjk
      rw [if_of_neg (by omega)]
      simp only [List.flatMap_cons, List.flatMap_nil, List.append_nil,
        Nat.add_sub_cancel_left]
    · rw [if_pos (flat_lt_gen m k j i (by omega) hi)]
      exact ih (by omega)

theorem poisson_f_getElem (N i j : ℕ) (hi : i < N) (hj : j < N) :
    (poisson_f N)[j * N + i]? = some (if isBoundary N i j then (0 : ℚ) else 1) := by
  rw [poisson_f, range_flatMap_getElem _ N N j i (fun x => by simp) hj hi,
      List.getElem?_map, List.getElem?_range hi]
  rfl

theorem helmholtz_f_getElem (N i j : ℕ) (hi : i < N) (hj : j < N) :
    (helmholtz_f N)[j * N + i]? = some (if isBoundary N i j then (0 : ℚ) else 1) := by
  rw [helmholtz_f, range_flatMap_getElem _ N N j i (fun x => by simp) hj hi,
      List.getElem?_map, List.getElem?_range hi]
  rfl

theorem helmholtz_f_length (N : ℕ) : (helmholtz_f N).length = N * N :=
  poisson_f_length N

/-! ## The tiled kernel reads only in-range global indices -/

/-- The loading phase of the tiled kernel depends only on the interior-only
entries at indices below `(N-2)²`: all guarded global reads are in range. -/
theorem threadWrites_ext (N bi bj i j : ℕ) (u v : ℕ → ℚ)
    (hi : i < SX) (hj : j < SY)
    (hu : ∀ k < (N - 2) * (N - 2), u k = v k) :
    threadWrites N bi bj i j u = threadWrites N bi bj i j v := by
  rw [SX_eq] at hi
  rw [SY_eq] at hj
  simp only [threadWrites, SX_eq, SY_eq, haloSX_eq, haloSY_eq]
  by_cases hact : N - 2 ≤ bi * 32 + i ∨ N - 2 ≤ bj * 32 + j
  · rw [if_pos hact, if_pos hact]
  · rw [if_neg hact, if_neg hact]
    have hpi : bi * 32 + i < N - 2 := by omega
    have hpj : bj * 32 + j < N - 2 := by omega
    have hpk : (bj * 32 + j) * (N - 2) + (bi * 32 + i) < (N - 2) * (N - 2) :=
      flat_lt (N - 2) (bj * 32 + j) (bi * 32 + i) hpj hpi
    have h0 : u ((bj * 32 + j) * (N - 2) + (bi * 32 + i)) =
        v ((bj * 32 + j) * (N - 2) + (bi * 32 + i)) := hu _ hpk
    have h1 : (if i = 0 ∧ bi * 32 + i ≠ 0
          then [((i, j + 1), u ((bj * 32 + j) * (N - 2) + (bi * 32 + i) - 1))] else []) =
        (if i = 0 ∧ bi * 32 + i ≠ 0
          then [((i, j + 1), v ((bj * 32 + j) * (N - 2) + (bi * 32 + i) - 1))] else []) := by
      by_cases h : i = 0 ∧ bi * 32 + i ≠ 0
      · rw [if_pos h, if_pos h, hu _ (by omega)]
      · rw [if_neg h, if_neg h]
    have h2 : (if j = 0 ∧ bj * 32 + j ≠ 0
          then [((i + 1, j),
            u ((bj * 32 + j) * (N - 2) + (bi * 32 + i) - (N - 2)))] else []) =
        (if j = 0 ∧ bj * 32 + j ≠ 0
          then [((i + 1, j),
            v ((bj * 32 + j) * (N - 2) + (bi * 32 + i) - (N - 2)))] else []) := by
      by_cases h : j = 0 ∧ bj * 32 + j ≠ 0
      · rw [if_pos h, if_pos h, hu _ (by omega)]
      · rw [if_neg h, if_neg h]
    have h3 : (if i = 32 - 1 ∧ bi * 32 + i ≠ N - 2 - 1
          then [((32 + 2 - 1, j + 1),
            u ((bj * 32 + j) * (N - 2) + (bi * 32 + i) + 1))] else []) =
        (if i = 32 - 1 ∧ bi * 32 + i ≠ N - 2 - 1
          then [((32 + 2 - 1, j + 1),
            v ((bj * 32 + j) * (N - 2) + (bi * 32 + i) + 1))] else []) := by
      by_cases h : i = 32 - 1 ∧ bi * 32 + i ≠ N - 2 - 1
      · have hb : (bj * 32 + j) * (N - 2) + (bi * 32 + i + 1) < (N - 2) * (N - 2) :=
          flat_lt_gen (N - 2) (N - 2) (bj * 32 + j) (bi * 32 + i + 1) hpj (by omega)
        rw [if_pos h, if_pos h, hu _ (by omega)]
      · rw [if_neg h, if_neg h]
    have h4 : (if j = 32 - 1 ∧ bj * 32 + j ≠ N - 2 - 1
          then [((i + 1, 32 + 2 - 1),
            u ((bj * 32 + j) * (N - 2) + (bi * 32 + i) + (N - 2)))] else []) =
        (if j = 32 - 1 ∧ bj * 32 + j ≠ N - 2 - 1
          then [((i + 1, 32 + 2 - 1),
            v ((bj * 32 + j) * (N - 2) + (bi * 32 + i) + (N - 2)))] else []) := by
      by_cases h : j = 32 - 1 ∧ bj * 32 + j ≠ N - 2 - 1
      · have hexp : (bj * 32 + j + 1) * (N - 2) = (bj * 32 + j) * (N - 2) + (N - 2) :=
          add_one_mul (bj * 32 + j) (N - 2)
        have hb : (bj * 32 + j + 1) * (N - 2) + (bi * 32 + i) < (N - 2) * (N - 2) :=
          flat_lt_gen (N - 2) (N - 2) (bj * 32 + j + 1) (bi * 32 + i) (by omega) hpi
        rw [if_pos h, if_pos h, hu _ (by omega)]
      · rw [if_neg h, if_neg h]
    rw [h0, h1, h2, h3, h4]

/-! ## Claim theorems -/

/-- **C1**: for every `N ≥ 2`, `ω ≥ 0` and every interior-only input vector `u`
(entries below `(N-2)²` are the vector), the tiled shared-memory evaluator's
output at each interior flat position equals the corresponding interior row of
the sparse operator `build(N, ω)` applied to the zero-boundary-padded full-grid
vector — exactly, since floats are idealised as rationals.  The initial
shared-memory contents `init` are arbitrary. -/
theorem claim_tiled_equals_sparse (N : ℕ) (ω : ℚ) (u : ℕ → ℚ) (init : ℕ × ℕ → ℚ)
    (hN : 2 ≤ N) (hω : 0 ≤ ω) (pk : ℕ) (hpk : pk < (N - 2) * (N - 2)) :
    gpu2out N ω u init pk =
      rowDot (padInterior N u) ((pk / (N - 2) + 1) * N + (pk % (N - 2) + 1))
        (helmholtzEntries N ω) :=
  gpu2out_eq_rowDot N ω u init pk hpk

theorem claim_tiled_equals_sparse_witness :
    2 ≤ 4 ∧ (0 : ℚ) ≤ 1 ∧ 1 < (4 - 2) * (4 - 2) ∧
      gpu2out 4 1 (fun k => (k : ℚ)) (fun _ => 5) 1 =
        rowDot (padInterior 4 (fun k => (k : ℚ)))
          ((1 / (4 - 2) + 1) * 4 + (1 % (4 - 2) + 1)) (helmholtzEntries 4 1) :=
  ⟨by norm_num, by norm_num, by norm_num,
    claim_tiled_equals_sparse 4 1 (fun k => (k : ℚ)) (fun _ => 5)
      (by norm_num) (by norm_num) 1 (by norm_num)⟩

/-- **C2**: for every `N ≥ 2` and full-grid input `u` of length `N²`, the naive
matrix-free evaluator's output at each flat index equals the corresponding row
of the sparse operator `A` times `u` — exactly, over ℚ. -/
theorem claim_naive_equals_sparse (N : ℕ) (u : ℕ → ℚ) (hN : 2 ≤ N)
    (k : ℕ) (hk : k < N * N) :
    naiveOut N u k = rowDot u k (poissonEntries N) := by
  have hi : k % N < N := Nat.mod_lt _ (by omega)
  have hj : k / N < N := (Nat.div_lt_iff_lt_mul (by omega)).mpr hk
  have hk' : k / N * N + k % N = k := Nat.div_add_mod' k N
  rw [naiveOut, gpuNaive_eq_rowDot N u (k % N) (k / N) hi hj, hk']

theorem claim_naive_equals_sparse_witness :
    2 ≤ 3 ∧ 4 < 3 * 3 ∧
      naiveOut 3 (fun k => (k + 1 : ℚ)) 4 =
        rowDot (fun k => (k + 1 : ℚ)) 4 (poissonEntries 3) :=
  ⟨by norm_num, by norm_num,
    claim_naive_equals_sparse 3 (fun k => (k + 1 : ℚ)) (by norm_num) 4 (by norm_num)⟩

/-- **C3**: for every `N ≥ 2` the builder emits exactly `5N² - 16N + 16`
triplets, all with nonzero coefficients and pairwise-distinct `(row, col)`
positions (so the assembled sparse operator stores exactly that many
nonzeros), and the returned `f` has length `N²`. -/
theorem claim_builder_counts (N : ℕ) (hN : 2 ≤ N) :
    (((poissonEntries N).length : ℕ) : ℤ) = 5 * (N : ℤ) ^ 2 - 16 * N + 16 ∧
    (poisson_f N).length = N * N ∧
    (∀ e ∈ poissonEntries N, e.2.2 ≠ 0) ∧
    ((poissonEntries N).map fun e => (e.1, e.2.1)).Nodup :=
  ⟨poissonEntries_length N hN, poisson_f_length N, poissonEntries_nonzero N hN,
    poisson_rowcol_nodup N hN⟩

theorem claim_builder_counts_witness :
    2 ≤ 4 ∧
      ((((poissonEntries 4).length : ℕ) : ℤ) = 5 * (4 : ℤ) ^ 2 - 16 * 4 + 16 ∧
      (poisson_f 4).length = 4 * 4 ∧
      (∀ e ∈ poissonEntries 4, e.2.2 ≠ 0) ∧
      ((poissonEntries 4).map fun e => (e.1, e.2.1)).Nodup) :=
  ⟨by norm_num, claim_builder_counts 4 (by norm_num)⟩

/-- **C4**: for every `N ≥ 2` and every `ω`, `build(N, ω)` emits for each
interior flat index `k = j·N + i` exactly the five entries `(k, k, 4(N-1)²+ω²)`,
`(k, k+1, -(N-1)²)`, `(k, k-1, -(N-1)²)`, `(k, k+N, -(N-1)²)`,
`(k, k-N, -(N-1)²)` and sets `f[k] = 1`; for each boundary flat index the single
entry `(k, k, 1)` with `f[k] = 0`. -/
theorem claim_build_row_content (N : ℕ) (ω : ℚ) (i j : ℕ) (hN : 2 ≤ N)
    (hi : i < N) (hj : j < N) :
    (¬isBoundary N i j →
      (helmholtzEntries N ω).filter (fun e => decide (e.1 = j * N + i)) =
        [(j * N + i, j * N + i, 4 * coef N + ω ^ 2),
         (j * N + i, j * N + i + 1, -coef N),
         (j * N + i, j * N + i - 1, -coef N),
         (j * N + i, j * N + i + N, -coef N),
         (j * N + i, j * N + i - N, -coef N)] ∧
      (helmholtz_f N)[j * N + i]? = some 1) ∧
    (isBoundary N i j →
      (helmholtzEntries N ω).filter (fun e => decide (e.1 = j * N + i)) =
        [(j * N + i, j * N + i, 1)] ∧
      (helmholtz_f N)[j * N + i]? = some 0) := by
  constructor
  · intro hb
    constructor
    · rw [helmholtz_filter N ω i j hi hj, helmholtzBlock, if_neg hb]
      have h0j : 0 < j := by
        by_cases h : j = 0
        · exact absurd (Or.inr (Or.inr (Or.inl h))) hb
        · omega
      have hcol1 : (j + 1) * N + i = j * N + i + N := by
        rw [add_one_mul]; omega
      have hjN : j * N = (j - 1) * N + N := by
        rw [← add_one_mul]
        congr 1
        omega
      have hcol2 : (j - 1) * N + i = j * N + i - N := by omega
      rw [hcol1, hcol2]
    · rw [helmholtz_f_getElem N i j hi hj, if_neg hb]
  · intro hb
    exact ⟨by rw [helmholtz_filter N ω i j hi hj, helmholtzBlock, if_pos hb],
      by rw [helmholtz_f_getElem N i j hi hj, if_pos hb]⟩

theorem claim_build_row_content_witness :
    2 ≤ 4 ∧
      ((¬isBoundary 4 1 1 →
        (helmholtzEntries 4 2).filter (fun e => decide (e.1 = 1 * 4 + 1)) =
          [(1 * 4 + 1, 1 * 4 + 1, 4 * coef 4 + 2 ^ 2),
           (1 * 4 + 1, 1 * 4 + 1 + 1, -coef 4),
           (1 * 4 + 1, 1 * 4 + 1 - 1, -coef 4),
           (1 * 4 + 1, 1 * 4 + 1 + 4, -coef 4),
           (1 * 4 + 1, 1 * 4 + 1 - 4, -coef 4)] ∧
        (helmholtz_f 4)[1 * 4 + 1]? = some 1) ∧
      (isBoundary 4 1 1 →
        (helmholtzEntries 4 2).filter (fun e => decide (e.1 = 1 * 4 + 1)) =
          [(1 * 4 + 1, 1 * 4 + 1, 1)] ∧
        (helmholtz_f 4)[1 * 4 + 1]? = some 0)) :=
  ⟨by norm_num, claim_build_row_content 4 2 1 1 (by norm_num) (by norm_num) (by norm_num)⟩

/-- **C5** (counterexample): the builder performs no validation for `N < 2`; at
`N = 1` it raises nothing and returns a result — the single boundary entry and
`f = [0]`. -/
theorem claim_small_N_cex : poissonEntries 1 = [(0, 0, 1)] ∧ poisson_f 1 = [0] := by
  constructor <;> rfl

/-- **C5** (amended): the source builder has no `N < 2` check: for `N < 2` the
emission loop still runs and returns a result with `N²` entries (every point is
boundary), strictly fewer than the `5N² - 16N + 16` preallocated slots, which
are therefore left uninitialised; no `InvalidArgument` error exists in the
code. -/
theorem claim_small_N_no_failure (N : ℕ) (hN : N < 2) :
    (((poissonEntries N).length : ℕ) : ℤ) = (N : ℤ) ^ 2 ∧
    ((N : ℤ) ^ 2 ≠ 5 * (N : ℤ) ^ 2 - 16 * N + 16) ∧
    (poisson_f N).length = N * N := by
  interval_cases N
  · exact ⟨by decide, by decide, by decide⟩
  · exact ⟨by decide, by decide, by decide⟩

theorem claim_small_N_no_failure_witness :
    1 < 2 ∧
      ((((poissonEntries 1).length : ℕ) : ℤ) = (1 : ℤ) ^ 2 ∧
      ((1 : ℤ) ^ 2 ≠ 5 * (1 : ℤ) ^ 2 - 16 * 1 + 16) ∧
      (poisson_f 1).length = 1 * 1) :=
  ⟨by norm_num, claim_small_N_no_failure 1 (by norm_num)⟩

/-- **C6**: the naive evaluator is the exact identity on boundary points: for
every boundary flat index `k = j·N + i` the output is the input entry `u[k]`
itself, with no arithmetic applied. -/
theorem claim_naive_boundary_identity (N : ℕ) (u : ℕ → ℚ) (i j : ℕ) (hN : 2 ≤ N)
    (hi : i < N) (hj : j < N) (hb : isBoundary N i j) :
    naiveOut N u (j * N + i) = u (j * N + i) := by
  rw [naiveOut, flat_mod N j i hi, flat_div N j i hi, gpuNaive, if_pos hb]

theorem claim_naive_boundary_identity_witness :
    2 ≤ 3 ∧ 2 < 3 ∧ 0 < 3 ∧ isBoundary 3 2 0 ∧
      naiveOut 3 (fun k => (7 * k : ℚ)) (0 * 3 + 2) = 7 * ((0 * 3 + 2 : ℕ) : ℚ) :=
  ⟨by norm_num, by norm_num, by norm_num, by decide,
    claim_naive_boundary_identity 3 (fun k => (7 * k : ℚ)) 2 0
      (by norm_num) (by norm_num) (by norm_num) (by decide)⟩

/-- **C7**: applying the tiled evaluator to the all-zero interior vector yields
exactly zero at every interior position, for every `N ≥ 2`, every `ω` and any
initial shared-memory contents. -/
theorem claim_tiled_zero_to_zero (N : ℕ) (ω : ℚ) (init : ℕ × ℕ → ℚ) (pk : ℕ)
    (hN : 2 ≤ N) (hpk : pk < (N - 2) * (N - 2)) :
    gpu2out N ω (fun _ => 0) init pk = 0 := by
  rw [gpu2out_eval N ω (fun _ => 0) init pk hpk]
  split_ifs <;> ring

theorem claim_tiled_zero_to_zero_witness :
    2 ≤ 5 ∧ 8 < (5 - 2) * (5 - 2) ∧ gpu2out 5 3 (fun _ => 0) (fun _ => 7) 8 = 0 :=
  ⟨by norm_num, by norm_num,
    claim_tiled_zero_to_zero 5 3 (fun _ => 7) 8 (by norm_num) (by norm_num)⟩

/-- **C8**: for every active worker sitting on an edge of the interior grid, the
adjacent halo cell of the shared buffer holds exactly 0 at the barrier — the
Dirichlet zero override determines the final cell value (including at tile
corners coincident with the global boundary). -/
theorem claim_halo_override_zero (N bi bj i j : ℕ) (u : ℕ → ℚ) (init : ℕ × ℕ → ℚ)
    (hi : i < SX) (hj : j < SY)
    (hpi : bi * SX + i < N - 2) (hpj : bj * SY + j < N - 2) :
    (bi * SX + i = 0 → localBuf N bi bj u init (i, j + 1) = 0) ∧
    (bj * SY + j = 0 → localBuf N bi bj u init (i + 1, j) = 0) ∧
    (bi * SX + i = N - 2 - 1 → localBuf N bi bj u init (i + 2, j + 1) = 0) ∧
    (bj * SY + j = N - 2 - 1 → localBuf N bi bj u init (i + 1, j + 2) = 0) := by
  rw [SX_eq] at hi hpi
  rw [SY_eq] at hj hpj
  rw [SX_eq, SY_eq]
  refine ⟨fun h => ?_, fun h => ?_, fun h => ?_, fun h => ?_⟩
  · rw [buf_down N bi bj i j u init hi hj hpi hpj, if_pos h]
  · rw [buf_left N bi bj i j u init hi hj hpi hpj, if_pos h]
  · rw [buf_up N bi bj i j u init hi hj hpi hpj, if_pos h]
  · rw [buf_right N bi bj i j u init hi hj hpi hpj, if_pos h]

theorem claim_halo_override_zero_witness :
    0 < SX ∧ 1 < SY ∧ 0 * SX + 0 < 5 - 2 ∧ 0 * SY + 1 < 5 - 2 ∧
      ((0 * SX + 0 = 0 →
        localBuf 5 0 0 (fun k => (k : ℚ)) (fun _ => 9) (0, 1 + 1) = 0) ∧
      (0 * SY + 1 = 0 →
        localBuf 5 0 0 (fun k => (k : ℚ)) (fun _ => 9) (0 + 1, 1) = 0) ∧
      (0 * SX + 0 = 5 - 2 - 1 →
        localBuf 5 0 0 (fun k => (k : ℚ)) (fun _ => 9) (0 + 2, 1 + 1) = 0) ∧
      (0 * SY + 1 = 5 - 2 - 1 →
        localBuf 5 0 0 (fun k => (k : ℚ)) (fun _ => 9) (0 + 1, 1 + 2) = 0)) :=
  ⟨by decide, by decide, by decide, by decide,
    claim_halo_override_zero 5 0 0 0 1 (fun k => (k : ℚ)) (fun _ => 9)
      (by decide) (by decide) (by decide) (by decide)⟩

/-- **C9**: every stencil neighbour index computed by the naive kernel for a
non-boundary point lies in `[0, N²)`, and every guarded global read of the
tiled kernel lies in `[0, (N-2)²)` — equivalently, the loading phase depends
only on in-range entries of the interior vector. -/
theorem claim_stencil_in_range (N : ℕ) (hN : 2 ≤ N) :
    (∀ i j : ℕ, 0 < i → i < N - 1 → 0 < j → j < N - 1 →
      j * N + i < N * N ∧ upIdx N i j < N * N ∧ downIdx N i j < N * N ∧
        leftIdx N i j < N * N ∧ rightIdx N i j < N * N) ∧
    (∀ bi bj i j : ℕ, i < SX → j < SY →
      bi * SX + i < N - 2 → bj * SY + j < N - 2 →
      (bi * SX + i ≠ 0 →
        (bj * SY + j) * (N - 2) + (bi * SX + i) - 1 < (N - 2) * (N - 2)) ∧
      (bj * SY + j ≠ 0 →
        (bj * SY + j) * (N - 2) + (bi * SX + i) - (N - 2) < (N - 2) * (N - 2)) ∧
      (bi * SX + i ≠ N - 2 - 1 →
        (bj * SY + j) * (N - 2) + (bi * SX + i) + 1 < (N - 2) * (N - 2)) ∧
      (bj * SY + j ≠ N - 2 - 1 →
        (bj * SY + j) * (N - 2) + (bi * SX + i) + (N - 2) < (N - 2) * (N - 2)) ∧
      (∀ u v : ℕ → ℚ, (∀ k < (N - 2) * (N - 2), u k = v k) →
        threadWrites N bi bj i j u = threadWrites N bi bj i j v)) := by
  constructor
  · intro i j h0i h1i h0j h1j
    have h1 : j * N + i < N * N := flat_lt_gen N N j i (by omega) (by omega)
    have h2 : (j + 1) * N + i < N * N := flat_lt_gen N N (j + 1) i (by omega) (by omega)
    have h3 : (j - 1) * N + i < N * N := flat_lt_gen N N (j - 1) i (by omega) (by omega)
    have he : (j + 1) * N = j * N + N := add_one_mul j N
    rw [upIdx, downIdx, leftIdx, rightIdx]
    exact ⟨h1, h2, h3, by omega, by omega⟩
  · intro bi bj i j hiS hjS hpiS hpjS
    rw [SX_eq] at hiS hpiS
    rw [SY_eq] at hjS hpjS
    rw [SX_eq, SY_eq]
    have hpk : (bj * 32 + j) * (N - 2) + (bi * 32 + i) < (N - 2) * (N - 2) :=
      flat_lt (N - 2) (bj * 32 + j) (bi * 32 + i) hpjS hpiS
    refine ⟨fun h => by omega, fun h => by omega, fun h => ?_, fun h => ?_, ?_⟩
    · have hb : (bj * 32 + j) * (N - 2) + (bi * 32 + i + 1) < (N - 2) * (N - 2) :=
        flat_lt_gen (N - 2) (N - 2) (bj * 32 + j) (bi * 32 + i + 1) hpjS (by omega)
      omega
    · have hexp : (bj * 32 + j + 1) * (N - 2) = (bj * 32 + j) * (N - 2) + (N - 2) :=
        add_one_mul (bj * 32 + j) (N - 2)
      have hb : (bj * 32 + j + 1) * (N - 2) + (bi * 32 + i) < (N - 2) * (N - 2) :=
        flat_lt_gen (N - 2) (N - 2) (bj * 32 + j + 1) (bi * 32 + i) (by omega) hpiS
      omega
    · exact fun u v hu =>
        threadWrites_ext N bi bj i j u v (by rw [SX_eq]; omega) (by rw [SY_eq]; omega) hu

theorem claim_stencil_in_range_witness :
    2 ≤ 6 ∧
      ((∀ i j : ℕ, 0 < i → i < 6 - 1 → 0 < j → j < 6 - 1 →
        j * 6 + i < 6 * 6 ∧ upIdx 6 i j < 6 * 6 ∧ downIdx 6 i j < 6 * 6 ∧
          leftIdx 6 i j < 6 * 6 ∧ rightIdx 6 i j < 6 * 6) ∧
      (∀ bi bj i j : ℕ, i < SX → j < SY →
        bi * SX + i < 6 - 2 → bj * SY + j < 6 - 2 →
        (bi * SX + i ≠ 0 →
          (bj * SY + j) * (6 - 2) + (bi * SX + i) - 1 < (6 - 2) * (6 - 2)) ∧
        (bj * SY + j ≠ 0 →
          (bj * SY + j) * (6 - 2) + (bi * SX + i) - (6 - 2) < (6 - 2) * (6 - 2)) ∧
        (bi * SX + i ≠ 6 - 2 - 1 →
          (bj * SY + j) * (6 - 2) + (bi * SX + i) + 1 < (6 - 2) * (6 - 2)) ∧
        (bj * SY + j ≠ 6 - 2 - 1 →
          (bj * SY + j) * (6 - 2) + (bi * SX + i) + (6 - 2) < (6 - 2) * (6 - 2)) ∧
        (∀ u v : ℕ → ℚ, (∀ k < (6 - 2) * (6 - 2), u k = v k) →
          threadWrites 6 bi bj i j u = threadWrites 6 bi bj i j v))) :=
  ⟨by norm_num, claim_stencil_in_range 6 (by norm_num)⟩

/-- **C10**: the compute phase reads only the five stencil cells
`(i+1, j+1)`, `(i, j+1)`, `(i+2, j+1)`, `(i+1, j)`, `(i+1, j+2)` of the local
buffer; the four corner cells of the `(tileSize+2)²` halo buffer are never
read, so two runs whose uninitialised corner contents differ arbitrarily
produce identical outputs. -/
theorem claim_corner_independent (N : ℕ) (ω : ℚ) (u : ℕ → ℚ)
    (init₁ init₂ : ℕ × ℕ → ℚ) (pk : ℕ) (hpk : pk < (N - 2) * (N - 2))
    (hinit : ∀ a b : ℕ, ¬((a = 0 ∨ a = haloSX - 1) ∧ (b = 0 ∨ b = haloSY - 1)) →
      init₁ (a, b) = init₂ (a, b)) :
    gpu2out N ω u init₁ pk = gpu2out N ω u init₂ pk := by
  have hbuf : ∀ a b : ℕ, ¬((a = 0 ∨ a = haloSX - 1) ∧ (b = 0 ∨ b = haloSY - 1)) →
      localBuf N (pk % (N - 2) / SX) (pk / (N - 2) / SY) u init₁ (a, b) =
        localBuf N (pk % (N - 2) / SX) (pk / (N - 2) / SY) u init₂ (a, b) := by
    intro a b h
    rw [localBuf, localBuf, writeSeq_eq, writeSeq_eq, hinit a b h]
  simp only [gpu2out, tileCompute]
  rw [hbuf _ _ (by simp only [SX_eq, SY_eq, haloSX_eq, haloSY_eq]; omega),
      hbuf _ _ (by simp only [SX_eq, SY_eq, haloSX_eq, haloSY_eq]; omega),
      hbuf _ _ (by simp only [SX_eq, SY_eq, haloSX_eq, haloSY_eq]; omega),
      hbuf _ _ (by simp only [SX_eq, SY_eq, haloSX_eq, haloSY_eq]; omega),
      hbuf _ _ (by simp only [SX_eq, SY_eq, haloSX_eq, haloSY_eq]; omega)]

theorem claim_corner_independent_witness :
    3 < (5 - 2) * (5 - 2) ∧
      gpu2out 5 0 (fun k => (k : ℚ)) (fun _ => 0) 3 =
        gpu2out 5 0 (fun k => (k : ℚ)) (fun _ => 0) 3 :=
  ⟨by norm_num,
    claim_corner_independent 5 0 (fun k => (k : ℚ)) (fun _ => 0) (fun _ => 0) 3
      (by norm_num) (fun a b h => rfl)⟩

end PoissonPDE
